import Mathlib

/-!
Formal model of the article extraction and deduplication engine of the
CNN Lite data collector (source file scrape_cnn_lite.py).

Strings of the Python source are modelled as lists of characters.
Python string helpers (strip, split, lower, upper) and the few regular
expressions the source uses are given explicit executable definitions
that mirror their documented semantics on the relevant inputs; the
regular-expression scanners reproduce leftmost, greedy matching of the
concrete patterns appearing in the source.  External library functions
(hashlib.sha256, urllib urljoin, datetime.now, network transport) are
either implemented from their specification (sha256) or passed in as
explicit parameters (urljoin, timestamps), as noted at each use site.
-/

abbrev Str := List Char

/-- Python whitespace test for the character classes used by the source
(covers the ASCII whitespace characters matched by the regex class \s). -/
def isSpc (c : Char) : Bool :=
  c == ' ' || c == '\t' || c == '\n' || c == '\r' || c == '\x0b' || c == '\x0c'

/-- Python str.strip from the right end only for a single character set. -/
def dropEndWhile (p : Char → Bool) (l : Str) : Str :=
  (l.reverse.dropWhile p).reverse

/-- Python str.strip: remove whitespace from both ends. -/
def pyStrip (l : Str) : Str :=
  dropEndWhile isSpc (l.dropWhile isSpc)

/-- Python str.lower, character by character (ASCII range suffices for the
tokens compared by the source). -/
def pyLower (l : Str) : Str := l.map Char.toLower

/-- Python str.upper, character by character. -/
def pyUpper (l : Str) : Str := l.map Char.toUpper

/-- Python str.rstrip with argument a period, as in entry.lower().rstrip of
the author suffix normalization. -/
def rstripDots (l : Str) : Str := dropEndWhile (fun c => c == '.') l

/-- Python part.split on a comma: split at every comma character. -/
def splitComma : Str → List Str
  | [] => [[]]
  | c :: r =>
    if c = ',' then [] :: splitComma r
    else
      match splitComma r with
      | p :: ps => (c :: p) :: ps
      | [] => [[c]]

/-- AUTHOR_SUFFIXES constant of the source. -/
def AUTHOR_SUFFIXES : List Str :=
  [('j' :: 'r' :: []), ('s' :: 'r' :: []), ('i' :: 'i' :: []),
   ('i' :: 'i' :: 'i' :: []), ('i' :: 'v' :: [])]

/-- CNN_AUTHOR_TOKEN constant of the source. -/
def CNN_AUTHOR_TOKEN : Str := 'C' :: 'N' :: 'N' :: []

/-- Test used at each comma component: entry.lower().rstrip of periods is a
member of AUTHOR_SUFFIXES. -/
def isSuffixEntry (entry : Str) : Bool :=
  decide (rstripDots (pyLower entry) ∈ AUTHOR_SUFFIXES)

/-- Substitution of the anchored pattern matching an optional run of leading
whitespace, the letters b y case-insensitively, and at least one further
whitespace character, removed once from the front of the string, as performed
by re.sub on the byline; when the pattern does not match the string is kept
unchanged. -/
def stripLeadingBy (l : Str) : Str :=
  match l.dropWhile isSpc with
  | b :: y :: rest =>
    if (b == 'b' || b == 'B') && (y == 'y' || y == 'Y') then
      match rest with
      | c :: _ => if isSpc c then rest.dropWhile isSpc else l
      | [] => l
    else l
  | _ => l

/-- After the leading whitespace of a conjunction separator: the literal
letters a n d or the ampersand, followed by at least one whitespace character
which is consumed greedily.  Returns the remainder after the match, or none. -/
def afterConjTok (r : Str) : Option Str :=
  match r with
  | 'a' :: 'n' :: 'd' :: rest =>
    (match rest with
     | c :: _ => if isSpc c then some (rest.dropWhile isSpc) else none
     | [] => none)
  | '&' :: rest =>
    (match rest with
     | c :: _ => if isSpc c then some (rest.dropWhile isSpc) else none
     | [] => none)
  | _ => none

/-- Scanner for re.split on the conjunction pattern: whitespace, the word and
or the ampersand, whitespace.  Scans left to right; a match begins at a
whitespace character whose maximal whitespace run is followed by the token and
further whitespace, all consumed greedily; fuel bounds the recursion by the
input length (each recursive call consumes at least one character). -/
def conjSplitAux : Nat → Str → Str → List Str
  | _, acc, [] => [acc.reverse]
  | 0, acc, l => [acc.reverse ++ l]
  | fuel + 1, acc, c :: rest =>
    if isSpc c then
      match afterConjTok ((c :: rest).dropWhile isSpc) with
      | some r2 => acc.reverse :: conjSplitAux fuel [] r2
      | none => conjSplitAux fuel (c :: acc) rest
    else conjSplitAux fuel (c :: acc) rest

/-- Python re.split on the conjunction separator pattern. -/
def conjSplit (l : Str) : List Str := conjSplitAux l.length [] l

/-- Separator used when the source rebuilds a name from components. -/
def commaSpace : Str := ',' :: ' ' :: []

/-- Scanner for the anchored tail of CNN_SUFFIX_PATTERN after its comma:
optional whitespace, the letters c n n case-insensitively, optional
whitespace, end of string. -/
def cnnTailMatch (r : Str) : Bool :=
  match r.dropWhile isSpc with
  | a :: b :: c :: rest =>
    (a == 'c' || a == 'C') && (b == 'n' || b == 'N') && (c == 'n' || c == 'N')
      && (rest.dropWhile isSpc).isEmpty
  | _ => false

/-- Substitution of CNN_SUFFIX_PATTERN (a comma, optional whitespace, the
letters c n n case-insensitively, optional whitespace, anchored at the end)
by the empty string: the leftmost match, which necessarily extends to the end
of the string, is removed. -/
def cnnSub : Str → Str
  | [] => []
  | c :: rest =>
    if c = ',' && cnnTailMatch rest then []
    else c :: cnnSub rest

/-- Walk over the comma components of one conjunction segment, lines 77 to 87
of the source: a component recognized as a name suffix is merged into the
accumulated current name, otherwise the accumulated name is emitted and the
accumulation restarts at that component; the final accumulation is emitted if
non-empty. -/
def walkEntries : List Str → Str → List Str
  | [], current => if current = [] then [] else [current]
  | e :: rest, current =>
    if isSuffixEntry e && decide (current ≠ []) then
      walkEntries rest (current ++ commaSpace ++ e)
    else
      (if current = [] then [] else [current]) ++ walkEntries rest e

/-- Processing of one conjunction segment, lines 67 to 87 of the source.
hasConj records whether the conjunction search succeeded and nparts the
number of segments, both fixed before the loop. -/
def processPart (hasConj : Bool) (nparts : Nat) (part : Str) : List Str :=
  let comma_parts := ((splitComma part).map pyStrip).filter (fun x => decide (x ≠ []))
  match comma_parts with
  | [] => []
  | c0 :: ctail =>
    if hasConj = false ∧ nparts = 1 ∧ ctail.length = 1 then
      [c0 ++ commaSpace ++ ctail.headD []]
    else walkEntries ctail c0

/-- Concatenation of a list of lists, used where the source extends one list
across loop iterations. -/
def catLists {α : Type} : List (List α) → List α
  | [] => []
  | l :: ls => l ++ catLists ls

/-- Final cleaning loop, lines 88 to 93 of the source: strip the wire-service
suffix, trim, and keep the name when it is non-empty and its upper-case form
differs from CNN_AUTHOR_TOKEN. -/
def cleanAuthors : List Str → List Str
  | [] => []
  | a :: rest =>
    let na := pyStrip (cnnSub a)
    if decide (na ≠ []) && decide (pyUpper na ≠ CNN_AUTHOR_TOKEN) then
      na :: cleanAuthors rest
    else cleanAuthors rest

/-- split_author_text of the source, lines 57 to 93.  The flag recording
whether re.search found a conjunction separator is modelled by the
equivalent test that re.split produced more than one segment. -/
def split_author_text (author_text : Str) : List Str :=
  if author_text = [] then []
  else
    let cleaned := pyStrip (stripLeadingBy author_text)
    if cleaned = [] then []
    else
      let parts := conjSplit cleaned
      let has_conjunction : Bool := decide (parts.length ≠ 1)
      cleanAuthors (catLists (parts.map (processPart has_conjunction parts.length)))

/-!
Document model.  A parsed document is a tree of element and text nodes;
class attributes are parsed into lists of class names as the HTML parser of
the source does, and the remaining attributes are key-value pairs.  The
soup object corresponds to the list of top-level nodes.
-/

mutual
inductive Node : Type where
  | elem (tag : Str) (classes : List Str) (attrs : List (Str × Str)) (children : NodeList)
  | text (s : Str)
inductive NodeList : Type where
  | nil
  | cons (n : Node) (l : NodeList)
end

/-- Element predicate over tag, classes and attributes. -/
abbrev ElemPred := Str → List Str → List (Str × Str) → Bool

mutual
/-- All element nodes of a subtree satisfying a predicate, in document
order with a node before its descendants, the node itself included. -/
def Node.matchElems (p : ElemPred) : Node → List Node
  | .text _ => []
  | .elem t c a ch =>
    (if p t c a then [Node.elem t c a ch] else []) ++ NodeList.matchElems p ch
/-- All matching element nodes below a list of nodes, in document order. -/
def NodeList.matchElems (p : ElemPred) : NodeList → List Node
  | .nil => []
  | .cons n l => Node.matchElems p n ++ NodeList.matchElems p l
end

mutual
/-- All text node contents of a subtree in document order, as the strings
generator of the parser yields them. -/
def Node.texts : Node → List Str
  | .text s => [s]
  | .elem _ _ _ ch => ch.texts
def NodeList.texts : NodeList → List Str
  | .nil => []
  | .cons n l => n.texts ++ l.texts
end

/-- The stripped_strings generator: each descendant string stripped, empty
results skipped. -/
def strippedStrings (n : Node) : List Str :=
  ((Node.texts n).map pyStrip).filter (fun x => decide (x ≠ []))

/-- get_text with strip set: the stripped descendant strings concatenated. -/
def getTextStrip (n : Node) : Str := catLists (strippedStrings n)

/-- Interleave a separator between list elements, as str.join does. -/
def joinWith (sep : Str) : List Str → Str
  | [] => []
  | [x] => x
  | x :: y :: rest => x ++ sep ++ joinWith sep (y :: rest)

/-- Single space, the separator joining an author element with stripped
strings. -/
def oneSpace : Str := ' ' :: []

/-- Author element text: the stripped strings joined with single spaces. -/
def spaceJoinStripped (n : Node) : Str := joinWith oneSpace (strippedStrings n)

/-- CSS-style selectors used by the source: a tag name, an exact class name,
a class attribute containing a substring, attribute presence, and an
attribute with an exact value. -/
inductive Sel : Type where
  | tag (t : Str)
  | cls (c : Str)
  | clsContains (c : Str)
  | attrPresent (a : Str)
  | attrEq (a : Str) (v : Str)

/-- Containment of one character list in another. -/
def subAt (pat : Str) : Str → Bool
  | [] => pat.isEmpty
  | c :: rest => decide (pat <+: (c :: rest)) || subAt pat rest

/-- Attribute lookup on an element node, as tag.get does. -/
def getAttr (n : Node) (key : Str) : Option Str :=
  match n with
  | .elem _ _ attrs _ => (attrs.find? (fun kv => decide (kv.1 = key))).map (fun kv => kv.2)
  | .text _ => none

/-- Predicate of one selector on element data. -/
def selPred : Sel → ElemPred
  | .tag t, tg, _, _ => decide (tg = t)
  | .cls c, _, cls, _ => decide (c ∈ cls)
  | .clsContains c, _, cls, _ => cls.any (fun x => subAt c x)
  | .attrPresent a, _, _, attrs => attrs.any (fun kv => decide (kv.1 = a))
  | .attrEq a v, _, _, attrs => attrs.any (fun kv => decide (kv.1 = a) && decide (kv.2 = v))

/-- soup.select: all matching elements of the document in document order. -/
def selectAll (s : Sel) (d : NodeList) : List Node :=
  NodeList.matchElems (selPred s) d

/-- soup.select_one: the first matching element, if any. -/
def selectOne (s : Sel) (d : NodeList) : Option Node :=
  (selectAll s d).head?

/-- find_all of paragraph elements among the descendants of an element (the
element itself is not among its own descendants). -/
def pTag : Str := 'p' :: []

def pFindAll (n : Node) : List Node :=
  match n with
  | .elem _ _ _ ch => NodeList.matchElems (fun t _ _ => decide (t = pTag)) ch
  | .text _ => []

/-- soup.find_all of paragraph elements over the whole document. -/
def pFindAllDoc (d : NodeList) : List Node :=
  NodeList.matchElems (fun t _ _ => decide (t = pTag)) d

/-- Anchor tag with an href attribute, the soup.find_all filter of
extract_article_links. -/
def aTag : Str := 'a' :: []
def hrefKey : Str := 'h' :: 'r' :: 'e' :: 'f' :: []

def anchorsWithHref (d : NodeList) : List Node :=
  NodeList.matchElems
    (fun t _ attrs => decide (t = aTag) && attrs.any (fun kv => decide (kv.1 = hrefKey))) d

/-!
Selector cascades of extract_article_data, lines 104 to 160 of the source,
and the link extraction of lines 40 to 54.
-/

def sH1 : Str := 'h' :: '1' :: []
def sTitleTag : Str := 't' :: 'i' :: 't' :: 'l' :: 'e' :: []
def sArticleTitle : Str := ('a' :: 'r' :: 't' :: 'i' :: 'c' :: 'l' :: 'e' :: '-' :: []) ++ sTitleTag
def sHeadline : Str := 'h' :: 'e' :: 'a' :: 'd' :: 'l' :: 'i' :: 'n' :: 'e' :: []
def sTimeTag : Str := 't' :: 'i' :: 'm' :: 'e' :: []
def sTimestamp : Str := sTimeTag ++ ('s' :: 't' :: 'a' :: 'm' :: 'p' :: [])
def sDate : Str := 'd' :: 'a' :: 't' :: 'e' :: []
def sDatetime : Str := sDate ++ sTimeTag
def sAuthor : Str := 'a' :: 'u' :: 't' :: 'h' :: 'o' :: 'r' :: []
def sRelKey : Str := 'r' :: 'e' :: 'l' :: []
def sBylineLite : Str :=
  'b' :: 'y' :: 'l' :: 'i' :: 'n' :: 'e' :: '-' :: '-' :: 'l' :: 'i' :: 't' :: 'e' :: []
def sArticleTag : Str := 'a' :: 'r' :: 't' :: 'i' :: 'c' :: 'l' :: 'e' :: []
def sArticleBody : Str := sArticleTag ++ ('-' :: 'b' :: 'o' :: 'd' :: 'y' :: [])
def sArticleContent : Str :=
  sArticleTag ++ ('-' :: 'c' :: 'o' :: 'n' :: 't' :: 'e' :: 'n' :: 't' :: [])
def sStoryBody : Str := 's' :: 't' :: 'o' :: 'r' :: 'y' :: '-' :: 'b' :: 'o' :: 'd' :: 'y' :: []
def sMain : Str := 'm' :: 'a' :: 'i' :: 'n' :: []

/-- title_selectors of the source, line 106. -/
def title_selectors : List Sel :=
  [.tag sH1, .tag sTitleTag, .cls sArticleTitle, .clsContains sHeadline]

/-- date_selectors of the source, line 115. -/
def date_selectors : List Sel :=
  [.tag sTimeTag, .cls sTimestamp, .clsContains sDate, .attrPresent sDatetime]

/-- author_selectors of the source, line 126. -/
def author_selectors : List Sel :=
  [.cls sAuthor, .clsContains sAuthor, .attrEq sRelKey sAuthor, .cls sBylineLite]

/-- text_selectors of the source, lines 140 to 146. -/
def text_selectors : List Sel :=
  [.tag sArticleTag, .cls sArticleBody, .clsContains sArticleContent,
   .clsContains sStoryBody, .tag sMain]

/-- First selector of a list whose select_one query finds an element: the
shape of the title and date loops, which break on the first found element. -/
def firstElem : List Sel → NodeList → Option Node
  | [], _ => none
  | sel :: rest, d =>
    match selectOne sel d with
    | some e => some e
    | none => firstElem rest d

/-- Python truthiness fallback x or y for strings. -/
def pyOrStr (o : Option Str) (dflt : Str) : Str :=
  match o with
  | some v => if v = [] then dflt else v
  | none => dflt

/-- Append one normalized author name if not seen, mirroring lines 131 to
134 of the source; since names enter the list and the seen set together,
membership in the accumulated list models the seen set. -/
def addAuthors (acc : List Str) : List Str → List Str
  | [] => acc
  | n :: rest =>
    if n ∈ acc then addAuthors acc rest
    else addAuthors (acc ++ [n]) rest

/-- Process the elements matched by one author selector group in document
order, lines 128 to 134 of the source. -/
def addFromElems (acc : List Str) : List Node → List Str
  | [] => acc
  | e :: rest =>
    addFromElems (addAuthors acc (split_author_text (spaceJoinStripped e))) rest

/-- The author loop over selector groups, lines 127 to 136 of the source:
a group is queried, its normalized names are appended with exact-string
de-duplication, and the loop breaks as soon as the list is non-empty. -/
def collectAuthors : List Sel → NodeList → List Str
  | [], _ => []
  | sel :: rest, d =>
    let found := addFromElems [] (selectAll sel d)
    if found = [] then collectAuthors rest d else found

/-- Blank line separating paragraphs in the joined body text. -/
def twoNewlines : Str := '\n' :: '\n' :: []

/-- Join of the non-empty stripped paragraph texts with a blank line,
line 153 of the source. -/
def joinParas (ps : List Node) : Str :=
  joinWith twoNewlines ((ps.map getTextStrip).filter (fun x => decide (x ≠ [])))

/-- The body selector cascade, lines 147 to 154 of the source: on the first
selector whose element exists and contains at least one paragraph element,
the join of the non-empty paragraph texts is taken and the loop breaks. -/
def cascadeText : List Sel → NodeList → Option Str
  | [], _ => none
  | sel :: rest, d =>
    match selectOne sel d with
    | some e =>
      let ps := pFindAll e
      if ps.isEmpty then cascadeText rest d else some (joinParas ps)
    | none => cascadeText rest d

/-- Python truthiness of an optional string. -/
def optTruthy (o : Option Str) : Bool :=
  match o with
  | some v => decide (v ≠ [])
  | none => false

/-- Body text computation of extract_article_data, lines 139 to 166:
the selector cascade, the whole-document paragraph fallback when the cascade
produced nothing truthy, and the sentinel default. -/
def DEFAULT_TEXT : Str :=
  'N' :: 'o' :: ' ' :: 't' :: 'e' :: 'x' :: 't' :: ' ' ::
  'f' :: 'o' :: 'u' :: 'n' :: 'd' :: []

def DEFAULT_TITLE : Str :=
  'N' :: 'o' :: ' ' :: 't' :: 'i' :: 't' :: 'l' :: 'e' :: ' ' ::
  'f' :: 'o' :: 'u' :: 'n' :: 'd' :: []

def bodyText (d : NodeList) : Str :=
  let text0 : Option Str := cascadeText text_selectors d
  let text1 : Option Str :=
    if optTruthy text0 then text0
    else
      let ps := pFindAllDoc d
      if ps.isEmpty then text0 else some (joinParas ps)
  pyOrStr text1 DEFAULT_TEXT

/-!
Link extraction, lines 40 to 54 of the source.  URL_BLOCK_LIST and its
trailing-slash-normalized form; urljoin of the standard library is passed
in as an explicit parameter.
-/

def urlCnnBase : Str :=
  'h' :: 't' :: 't' :: 'p' :: 's' :: ':' :: '/' :: '/' :: 'w' :: 'w' :: 'w' :: '.' ::
  'c' :: 'n' :: 'n' :: '.' :: 'c' :: 'o' :: 'm' :: '/' :: []

def urlTerms : Str := urlCnnBase ++ ('t' :: 'e' :: 'r' :: 'm' :: 's' :: [])
def urlPrivacy : Str := urlCnnBase ++ ('p' :: 'r' :: 'i' :: 'v' :: 'a' :: 'c' :: 'y' :: [])
def urlAdChoices : Str :=
  urlCnnBase ++ ('a' :: 'd' :: '-' :: 'c' :: 'h' :: 'o' :: 'i' :: 'c' :: 'e' :: 's' :: [])

/-- URL_BLOCK_LIST of the source, lines 24 to 29, as a list with membership
modelling the Python set. -/
def URL_BLOCK_LIST : List Str := [urlCnnBase, urlTerms, urlPrivacy, urlAdChoices]

/-- Python str.rstrip of trailing slash characters. -/
def rstripSlashes (l : Str) : Str := dropEndWhile (fun c => c == '/') l

/-- NORMALIZED_URL_BLOCK_LIST of the source, line 31. -/
def NORMALIZED_URL_BLOCK_LIST : List Str := URL_BLOCK_LIST.map rstripSlashes

/-- A hyperlink record url and text. -/
structure Link where
  url : Str
  text : Str
deriving DecidableEq

/-- Loop body of extract_article_links over the anchors found. -/
def linksOfAnchors (urljoin : Str → Str → Str) (base_url : Str) : List Node → List Link
  | [] => []
  | a :: rest =>
    let href := (getAttr a hrefKey).getD []
    let absolute_url := urljoin base_url href
    if rstripSlashes absolute_url ∈ NORMALIZED_URL_BLOCK_LIST then
      linksOfAnchors urljoin base_url rest
    else
      { url := absolute_url, text := getTextStrip a } :: linksOfAnchors urljoin base_url rest

/-- extract_article_links of the source, lines 40 to 54. -/
def extract_article_links (urljoin : Str → Str → Str) (soup : NodeList)
    (base_url : Str) : List Link :=
  linksOfAnchors urljoin base_url (anchorsWithHref soup)

/-!
Content hasher, get_article_hash of the source, lines 35 to 37.  The source
calls hashlib.sha256 on the UTF-8 encoding of the text and takes the
lower-case hexadecimal digest; sha256 is implemented here from its
specification (FIPS 180-4), with 32-bit words as natural numbers reduced
modulo 2 to the 32.
-/

def w32 : Nat := 4294967296

def add32 (a b : Nat) : Nat := (a + b) % w32

def rotr32 (n x : Nat) : Nat := ((x >>> n) ||| (x <<< (32 - n))) % w32

def shr32 (n x : Nat) : Nat := x >>> n

def xor32 (a b : Nat) : Nat := a ^^^ b

def not32 (x : Nat) : Nat := x ^^^ 4294967295

def bsig0 (x : Nat) : Nat := xor32 (xor32 (rotr32 2 x) (rotr32 13 x)) (rotr32 22 x)
def bsig1 (x : Nat) : Nat := xor32 (xor32 (rotr32 6 x) (rotr32 11 x)) (rotr32 25 x)
def ssig0 (x : Nat) : Nat := xor32 (xor32 (rotr32 7 x) (rotr32 18 x)) (shr32 3 x)
def ssig1 (x : Nat) : Nat := xor32 (xor32 (rotr32 17 x) (rotr32 19 x)) (shr32 10 x)
def chF (x y z : Nat) : Nat := xor32 (x &&& y) (not32 x &&& z)
def majF (x y z : Nat) : Nat := xor32 (xor32 (x &&& y) (x &&& z)) (y &&& z)

/-- Working state of eight 32-bit words. -/
structure Hash8 where
  a : Nat
  b : Nat
  c : Nat
  d : Nat
  e : Nat
  f : Nat
  g : Nat
  h : Nat
deriving DecidableEq

def sha256InitH : Hash8 :=
  ⟨1779033703, 3144134277, 1013904242, 2773480762,
   1359893119, 2600822924, 528734635, 1541459225⟩

def sha256K : List Nat :=
  [1116352408, 1899447441, 3049323471, 3921009573,
   961987163, 1508970993, 2453635748, 2870763221,
   3624381080, 310598401, 607225278, 1426881987,
   1925078388, 2162078206, 2614888103, 3248222580,
   3835390401, 4022224774, 264347078, 604807628,
   770255983, 1249150122, 1555081692, 1996064986,
   2554220882, 2821834349, 2952996808, 3210313671,
   3336571891, 3584528711, 113926993, 338241895,
   666307205, 773529912, 1294757372, 1396182291,
   1695183700, 1986661051, 2177026350, 2456956037,
   2730485921, 2820302411, 3259730800, 3345764771,
   3516065817, 3600352804, 4094571909, 275423344,
   430227734, 506948616, 659060556, 883997877,
   958139571, 1322822218, 1537002063, 1747873779,
   1955562222, 2024104815, 2227730452, 2361852424,
   2428436474, 2756734187, 3204031479, 3329325298]

/-- One compression round. -/
def roundStep (st : Hash8) (kw : Nat × Nat) : Hash8 :=
  let t1 := add32 st.h (add32 (bsig1 st.e) (add32 (chF st.e st.f st.g) (add32 kw.1 kw.2)))
  let t2 := add32 (bsig0 st.a) (majF st.a st.b st.c)
  ⟨add32 t1 t2, st.a, st.b, st.c, add32 st.d t1, st.e, st.f, st.g⟩

/-- Big-endian 32-bit words from bytes, four at a time, fuel bounded by the
byte count. -/
def wordsOfBytes : Nat → List Nat → List Nat
  | 0, _ => []
  | _ + 1, b0 :: b1 :: b2 :: b3 :: rest =>
    (((b0 * 256 + b1) * 256 + b2) * 256 + b3) :: wordsOfBytes rest.length rest
  | _ + 1, _ => []

/-- Message schedule extension; the accumulator holds the words most recent
first. -/
def extendW : Nat → List Nat → List Nat
  | 0, acc => acc.reverse
  | n + 1, acc =>
    let nw := add32 (ssig1 (acc.getD 1 0))
      (add32 (acc.getD 6 0) (add32 (ssig0 (acc.getD 14 0)) (acc.getD 15 0)))
    extendW n (nw :: acc)

def scheduleOf (block : List Nat) : List Nat :=
  extendW 48 (wordsOfBytes block.length block).reverse

/-- Compression of one 64-byte block. -/
def compressBlock (st : Hash8) (block : List Nat) : Hash8 :=
  let r := (sha256K.zip (scheduleOf block)).foldl roundStep st
  ⟨add32 st.a r.a, add32 st.b r.b, add32 st.c r.c, add32 st.d r.d,
   add32 st.e r.e, add32 st.f r.f, add32 st.g r.g, add32 st.h r.h⟩

/-- A run of zero bytes. -/
def zeroBytes : Nat → List Nat
  | 0 => []
  | n + 1 => 0 :: zeroBytes n

/-- Big-endian bytes of a value over a fixed byte count. -/
def beBytes : Nat → Nat → List Nat
  | 0, _ => []
  | n + 1, v => beBytes n (v / 256) ++ [v % 256]

/-- Merkle-Damgard padding: the byte 128, zero bytes up to 56 modulo 64, and
the bit length over eight bytes. -/
def sha256Pad (msg : List Nat) : List Nat :=
  let L := msg.length
  let r := (L + 1) % 64
  let z := if r ≤ 56 then 56 - r else 56 + 64 - r
  msg ++ (128 :: zeroBytes z) ++ beBytes 8 (8 * L)

/-- Split into 64-byte blocks, fuel bounded by the length. -/
def chunk64 : Nat → List Nat → List (List Nat)
  | 0, _ => []
  | _ + 1, [] => []
  | fuel + 1, l => l.take 64 :: chunk64 fuel (l.drop 64)

/-- The 32 digest bytes of a message given as bytes. -/
def sha256Bytes (msg : List Nat) : List Nat :=
  let padded := sha256Pad msg
  let fin := (chunk64 padded.length padded).foldl compressBlock sha256InitH
  catLists ([fin.a, fin.b, fin.c, fin.d, fin.e, fin.f, fin.g, fin.h].map (beBytes 4))

/-- UTF-8 encoding of one character. -/
def utf8Char (c : Char) : List Nat :=
  let n := c.toNat
  if n < 128 then [n]
  else if n < 2048 then [192 + n / 64, 128 + n % 64]
  else if n < 65536 then [224 + n / 4096, 128 + n / 64 % 64, 128 + n % 64]
  else [240 + n / 262144, 128 + n / 4096 % 64, 128 + n / 64 % 64, 128 + n % 64]

def utf8Bytes (s : Str) : List Nat := catLists (s.map utf8Char)

/-- Lower-case hexadecimal digit characters. -/
def hexDigitChar : Nat → Char
  | 0 => '0'
  | 1 => '1'
  | 2 => '2'
  | 3 => '3'
  | 4 => '4'
  | 5 => '5'
  | 6 => '6'
  | 7 => '7'
  | 8 => '8'
  | 9 => '9'
  | 10 => 'a'
  | 11 => 'b'
  | 12 => 'c'
  | 13 => 'd'
  | 14 => 'e'
  | 15 => 'f'
  | _ => '0'

def hexLowerChars : Str :=
  '0' :: '1' :: '2' :: '3' :: '4' :: '5' :: '6' :: '7' :: '8' :: '9' ::
  'a' :: 'b' :: 'c' :: 'd' :: 'e' :: 'f' :: []

def byteHex (b : Nat) : Str := [hexDigitChar (b / 16 % 16), hexDigitChar (b % 16)]

/-- get_article_hash of the source: the lower-case hexadecimal sha256 digest
of the UTF-8 encoded content. -/
def get_article_hash (content : Str) : Str :=
  catLists ((sha256Bytes (utf8Bytes content)).map byteHex)

/-!
The article record returned by extract_article_data, lines 96 to 184 of the
source.  Network retrieval and HTML parsing are external: the function is
modelled on the already parsed document.  The two timestamp reads of
datetime.now are passed in as the parameter nowIso, and urljoin as a
function parameter.
-/

structure ArticleData where
  url : Str
  title : Str
  date : Str
  authors : List Str
  text : Str
  links : List Link
  hash : Str
  scraped_at : Str
deriving DecidableEq

def extract_article_data (urljoin : Str → Str → Str) (nowIso : Str)
    (article_url : Str) (soup : NodeList) : ArticleData :=
  let title : Option Str := (firstElem title_selectors soup).map getTextStrip
  let date : Option Str := (firstElem date_selectors soup).map
    (fun e => pyOrStr (getAttr e sDatetime) (getTextStrip e))
  let authors := collectAuthors author_selectors soup
  let links := extract_article_links urljoin soup article_url
  let title_value := pyOrStr title DEFAULT_TITLE
  let text_value := bodyText soup
  let article_hash := get_article_hash text_value
  { url := article_url
    title := title_value
    date := pyOrStr date nowIso
    authors := authors
    text := text_value
    links := links
    hash := article_hash
    scraped_at := nowIso }

/-!
Dedup index seeding, load_existing_text_hashes of the source, lines 218 to
233.  A stored JSON record is modelled by the three fields the function
reads; a file whose read or parse raises is modelled as none.  The Python
set of hashes is modelled as the list of contributed hashes, membership
giving the set semantics.
-/

structure StoredRecord where
  hash : Option Str
  authorsPresent : Bool
  text : Option Str
deriving DecidableEq

/-- Hash contributed by one readable record: the stored hash when it is
truthy and the record carries a non-null authors field, otherwise the hash
recomputed from the stored text, an absent text field defaulting to the
empty string. -/
def seedHash (d : StoredRecord) : Str :=
  match d.hash with
  | some h => if h ≠ [] ∧ d.authorsPresent = true then h else get_article_hash (d.text.getD [])
  | none => get_article_hash (d.text.getD [])

/-- load_existing_text_hashes over the directory contents: a record whose
read fails is logged and skipped, every readable record contributes one
hash. -/
def load_existing_text_hashes : List (Option StoredRecord) → List Str
  | [] => []
  | none :: rest => load_existing_text_hashes rest
  | some d :: rest => seedHash d :: load_existing_text_hashes rest

/-!
Per-article step of the main loop, lines 286 to 300 of the source.  The
outcome records whether save_article was invoked and whether it succeeded;
an exception raised by save_article is caught by the surrounding handler
before the hash insertion, so on failure the index is unchanged.
-/

inductive StepOutcome where
  | skipDuplicate
  | savedNew (a : ArticleData)
  | saveFailed (a : ArticleData)
  | noArticle
deriving DecidableEq

/-- Whether the outcome involved an invocation of save_article. -/
def saveInvoked : StepOutcome → Bool
  | .savedNew _ => true
  | .saveFailed _ => true
  | _ => false

/-- One iteration of the article loop in main: when extraction produced a
record, a hash already in the index yields the duplicate skip; otherwise
save_article runs and, only when it returns without raising, the hash is
added to the index. -/
def processArticle (saveOk : Bool) (ad : Option ArticleData)
    (hashes : List Str) : List Str × StepOutcome :=
  match ad with
  | none => (hashes, .noArticle)
  | some a =>
    if a.hash ∈ hashes then (hashes, .skipDuplicate)
    else if saveOk then (a.hash :: hashes, .savedNew a)
    else (hashes, .saveFailed a)

/-- The article loop over a run: each element carries the persistence
success flag and the extraction result of one article. -/
def processArticles : List (Bool × Option ArticleData) → List Str →
    List Str × List StepOutcome
  | [], hashes => (hashes, [])
  | (ok, ad) :: rest, hashes =>
    let st := processArticle ok ad hashes
    let r := processArticles rest st.1
    (r.1, st.2 :: r.2)

/-- Hashes of the articles durably saved among a list of outcomes. -/
def savedHashes : List StepOutcome → List Str
  | [] => []
  | .savedNew a :: rest => a.hash :: savedHashes rest
  | _ :: rest => savedHashes rest

/-!
Specification-side formulations.  These definitions follow the wording of
the specification sentences under examination, for comparison with the
definitions taken from the source; each is named accordingly.
-/

/-- First selector of the body cascade whose element contains at least one
paragraph element, the condition under which the source loop breaks. -/
def findContainerWithP : List Sel → NodeList → Option Node
  | [], _ => none
  | sel :: rest, d =>
    match selectOne sel d with
    | some e => if (pFindAll e).isEmpty then findContainerWithP rest d else some e
    | none => findContainerWithP rest d

/-- Amended body specification: the first container with at least one
paragraph element wins; when its join of non-empty paragraph texts is empty,
or no container has a paragraph, the whole-document join is used; when that
is also empty the sentinel applies. -/
def bodySpecAmended (d : NodeList) : Str :=
  let fb := joinParas (pFindAllDoc d)
  let fromContainer :=
    match findContainerWithP text_selectors d with
    | some e => joinParas (pFindAll e)
    | none => []
  if fromContainer ≠ [] then fromContainer
  else if fb ≠ [] then fb
  else DEFAULT_TEXT

/-- First selector of the body cascade whose element contains at least one
paragraph with non-empty stripped text, as the claim under examination
words the cascade condition. -/
def findContainerClaim : List Sel → NodeList → Option Node
  | [], _ => none
  | sel :: rest, d =>
    match selectOne sel d with
    | some e =>
      if (pFindAll e).any (fun p => decide (getTextStrip p ≠ [])) then some e
      else findContainerClaim rest d
    | none => findContainerClaim rest d

/-- Body text as the claim under examination describes it: the first
container with a non-empty paragraph supplies the body, the whole-document
fallback applies only when no container matched, and the sentinel only when
that join is empty. -/
def bodySpecClaim (d : NodeList) : Str :=
  match findContainerClaim text_selectors d with
  | some e => joinParas (pFindAll e)
  | none =>
    let fb := joinParas (pFindAllDoc d)
    if fb ≠ [] then fb else DEFAULT_TEXT

/-- Normalized names contributed by one author selector group. -/
def groupAuthors (sel : Sel) (d : NodeList) : List Str :=
  addFromElems [] (selectAll sel d)

/-- Authors as the claim under examination words the group choice: the
first group any of whose elements has a non-empty byline text supplies the
authors. -/
def authorsSpecClaim : List Sel → NodeList → List Str
  | [], _ => []
  | sel :: rest, d =>
    if (selectAll sel d).any (fun e => decide (spaceJoinStripped e ≠ [])) then
      groupAuthors sel d
    else authorsSpecClaim rest d

/-- Amended author specification: the first group that yields at least one
normalized author name supplies the authors. -/
def authorsSpecAmended : List Sel → NodeList → List Str
  | [], _ => []
  | sel :: rest, d =>
    if groupAuthors sel d = [] then authorsSpecAmended rest d
    else groupAuthors sel d

/-- Decidable form of the hypothesis that no body strategy and no
whole-document fallback yields any non-empty paragraph text: every cascade
selector either finds nothing or an element whose join of non-empty
paragraph texts is empty, and the whole-document join is empty. -/
def bodylessDoc (d : NodeList) : Bool :=
  (text_selectors.all (fun sel =>
    match selectOne sel d with
    | some e => (joinParas (pFindAll e)).isEmpty
    | none => true))
  && (joinParas (pFindAllDoc d)).isEmpty

/-!
Concrete documents and data used to evaluate the model at specific inputs.
-/

def nlOf (l : List Node) : NodeList := l.foldr NodeList.cons NodeList.nil

def elN (tag : Str) (classes : List Str) (ch : List Node) : Node :=
  .elem tag classes [] (nlOf ch)

def txtN (s : Str) : Node := .text s

def cOneA : Str := 'A' :: []
def cOneB : Str := 'B' :: []
def blankText : Str := ' ' :: []
def sJane : Str := 'J' :: 'a' :: 'n' :: 'e' :: []
def sAuthorBox : Str := sAuthor ++ ('-' :: 'b' :: 'o' :: 'x' :: [])
def divTag : Str := 'd' :: 'i' :: 'v' :: []

/-- Document with an article container whose only paragraph has blank text,
an article-body container with paragraph text A, and a loose paragraph with
text B. -/
def docBlankArticle : NodeList :=
  nlOf
    [elN sArticleTag [] [elN pTag [] [txtN blankText]],
     elN divTag [sArticleBody] [elN pTag [] [txtN cOneA]],
     elN pTag [] [txtN cOneB]]

/-- Document whose author class element reads CNN while a second element
with an author-containing class carries a real name. -/
def docCnnByline : NodeList :=
  nlOf
    [elN divTag [sAuthor] [txtN CNN_AUTHOR_TOKEN],
     elN divTag [sAuthorBox] [txtN sJane]]

/-- Document with a single blank paragraph and no container. -/
def docOnlyBlankPara : NodeList := nlOf [elN pTag [] [txtN blankText]]

/-- The empty document. -/
def docEmpty : NodeList := NodeList.nil

/-- Identity resolution used when evaluating the model at concrete inputs,
standing for urljoin applied to already absolute references. -/
def ujId : Str → Str → Str := fun _ href => href

/-!
Predicates describing the shape of normalized author names.
-/

/-- First character, when present, is not whitespace. -/
def headNonSpc : Str → Bool
  | [] => true
  | c :: _ => !(isSpc c)

/-- Neither end carries whitespace. -/
def trimmedStr (l : Str) : Bool := headNonSpc l && headNonSpc l.reverse

/-- Exactly the three letters of the attribution token, case-insensitively. -/
def isCnnWord : Str → Bool
  | a :: b :: c :: [] =>
    (a == 'c' || a == 'C') && (b == 'n' || b == 'N') && (c == 'n' || c == 'N')
  | _ => false

/-- Join of a head component and further components with comma and space. -/
def joinComps : Str → List Str → Str
  | c0, [] => c0
  | c0, c1 :: rest => c0 ++ commaSpace ++ joinComps c1 rest

/-- Last component of a non-empty component list. -/
def lastOf : Str → List Str → Str
  | c0, [] => c0
  | _, c1 :: rest => lastOf c1 rest

/-- A well-formed name component: non-empty, trimmed, comma-free. -/
def GoodComp (c : Str) : Prop := c ≠ [] ∧ trimmedStr c = true ∧ ',' ∉ c

/-- Shape of an entry emitted by the per-segment loop: a join of well-formed
components that is either at most two components long or a head followed by
suffix components only. -/
def EntryInv (a : Str) : Prop :=
  ∃ c0 ctail, a = joinComps c0 ctail ∧ GoodComp c0 ∧ (∀ c ∈ ctail, GoodComp c) ∧
    (ctail.length ≤ 1 ∨ ∀ c ∈ ctail, isSuffixEntry c = true)

/-- Shape of a name returned by split_author_text: an entry shape whose last
component is not the attribution word when there are at least two
components, and whose upper-case form is not the attribution token. -/
def NiceName (n : Str) : Prop :=
  ∃ c0 ctail, n = joinComps c0 ctail ∧ GoodComp c0 ∧ (∀ c ∈ ctail, GoodComp c) ∧
    (ctail.length ≤ 1 ∨ ∀ c ∈ ctail, isSuffixEntry c = true) ∧
    (ctail = [] ∨ isCnnWord (lastOf c0 ctail) = false) ∧
    pyUpper n ≠ CNN_AUTHOR_TOKEN

/-!
Basic lemmas on whitespace stripping.
-/

def sByByJane : Str :=
  'B' :: 'y' :: ' ' :: 'B' :: 'y' :: ' ' :: 'J' :: 'a' :: 'n' :: 'e' :: []

def sByJane : Str := 'B' :: 'y' :: ' ' :: 'J' :: 'a' :: 'n' :: 'e' :: []

def sByJaneDoe : Str :=
  'B' :: 'y' :: ' ' :: 'J' :: 'a' :: 'n' :: 'e' :: ' ' :: 'D' :: 'o' :: 'e' :: []

def sJaneDoe : Str := 'J' :: 'a' :: 'n' :: 'e' :: ' ' :: 'D' :: 'o' :: 'e' :: []

/-!
General lemmas about the list helpers.
-/

theorem catLists_append {α : Type} (l1 l2 : List (List α)) :
    catLists (l1 ++ l2) = catLists l1 ++ catLists l2 := by
  induction l1 with
  | nil => simp [catLists]
  | cons x xs ih => simp [catLists, ih]

theorem mem_catLists {α : Type} (x : α) (L : List (List α)) :
    x ∈ catLists L ↔ ∃ l ∈ L, x ∈ l := by
  induction L with
  | nil => simp [catLists]
  | cons l ls ih =>
    simp only [catLists, List.mem_append, ih, List.mem_cons]
    constructor
    · rintro (h | ⟨m, hm, hx⟩)
      · exact ⟨l, Or.inl rfl, h⟩
      · exact ⟨m, Or.inr hm, hx⟩
    · rintro ⟨m, hm | hm, hx⟩
      · exact Or.inl (hm ▸ hx)
      · exact Or.inr ⟨m, hm, hx⟩

theorem catLists_length {α β : Type} (f : α → List β) (k : Nat) (l : List α)
    (h : ∀ x ∈ l, (f x).length = k) :
    (catLists (l.map f)).length = k * l.length := by
  induction l with
  | nil => simp [catLists]
  | cons x xs ih =>
    simp only [List.map_cons, catLists, List.length_append, List.length_cons]
    rw [h x (List.mem_cons_self x xs), ih (fun y hy => h y (List.mem_cons_of_mem x hy))]
    ring

/-!
Claim C7.  The link filter over the anchors of a document.
-/

theorem linksOfAnchors_spec (urljoin : Str → Str → Str) (base : Str) (l : List Node) :
    linksOfAnchors urljoin base l =
      (l.filter (fun a =>
        decide (rstripSlashes (urljoin base ((getAttr a hrefKey).getD [])) ∉
          NORMALIZED_URL_BLOCK_LIST))).map
        (fun a => { url := urljoin base ((getAttr a hrefKey).getD [])
                    text := getTextStrip a }) := by
  induction l with
  | nil => simp [linksOfAnchors]
  | cons a rest ih =>
    by_cases h : rstripSlashes (urljoin base ((getAttr a hrefKey).getD [])) ∈
        NORMALIZED_URL_BLOCK_LIST
    · simp [linksOfAnchors, h, ih]
    · simp [linksOfAnchors, h, ih]

/-- Claim C7: for every document and base URL the link extraction keeps
exactly those anchors carrying an href whose absolute trailing-slash
normalized URL is outside the normalized block list, in document order and
without de-duplication, as url and text pairs. -/
theorem C7_link_filter (urljoin : Str → Str → Str) (d : NodeList) (base : Str) :
    extract_article_links urljoin d base =
      ((anchorsWithHref d).filter (fun a =>
        decide (rstripSlashes (urljoin base ((getAttr a hrefKey).getD [])) ∉
          NORMALIZED_URL_BLOCK_LIST))).map
        (fun a => { url := urljoin base ((getAttr a hrefKey).getD [])
                    text := getTextStrip a }) := by
  unfold extract_article_links
  exact linksOfAnchors_spec urljoin base (anchorsWithHref d)

/-!
Claim C9.  Seeding tolerates a failed record read.
-/

/-- Claim C9: a failure reading one stored record during index seeding is
dropped from the seed set without affecting any other record, and the seed
set is exactly the hashes contributed by the readable records. -/
theorem C9_seed_skip_failure :
    (∀ pre post : List (Option StoredRecord),
      load_existing_text_hashes (pre ++ none :: post) =
        load_existing_text_hashes (pre ++ post)) ∧
    (∀ files : List (Option StoredRecord),
      load_existing_text_hashes files = (files.filterMap id).map seedHash) := by
  constructor
  · intro pre post
    induction pre with
    | nil => simp [load_existing_text_hashes]
    | cons o rest ih =>
      cases o with
      | none => simpa [load_existing_text_hashes] using ih
      | some d => simpa [load_existing_text_hashes] using ih
  · intro files
    induction files with
    | nil => simp [load_existing_text_hashes]
    | cons o rest ih =>
      cases o with
      | none => simpa [load_existing_text_hashes] using ih
      | some d => simpa [load_existing_text_hashes] using ih

/-!
Claim C2.  Seeding prefers the stored hash exactly when the record has a
truthy hash and a present authors field.
-/

/-- Claim C2: a stored record with a non-empty hash and a present authors
field contributes its stored hash unchanged; a record lacking the authors
field, or lacking a usable hash, contributes the hash recomputed from its
stored text; and every readable record contributes exactly its seed hash to
the index. -/
theorem C2_seed_hash_choice :
    (∀ (d : StoredRecord) (h : Str), d.hash = some h → h ≠ [] →
      d.authorsPresent = true → seedHash d = h) ∧
    (∀ d : StoredRecord, d.authorsPresent = false →
      seedHash d = get_article_hash (d.text.getD [])) ∧
    (∀ d : StoredRecord, (d.hash = none ∨ d.hash = some []) →
      seedHash d = get_article_hash (d.text.getD [])) ∧
    (∀ (pre post : List (Option StoredRecord)) (d : StoredRecord),
      load_existing_text_hashes (pre ++ some d :: post) =
        load_existing_text_hashes pre ++
          seedHash d :: load_existing_text_hashes post) := by
  refine ⟨?_, ?_, ?_, ?_⟩
  · intro d h hh hne hauth
    simp [seedHash, hh, hne, hauth]
  · intro d hauth
    cases hd : d.hash with
    | none => simp [seedHash, hd]
    | some h => simp [seedHash, hd, hauth]
  · intro d hd
    rcases hd with hd | hd
    · simp [seedHash, hd]
    · simp [seedHash, hd]
  · intro pre post d
    induction pre with
    | nil => simp [load_existing_text_hashes]
    | cons o rest ih =>
      cases o with
      | none => simpa [load_existing_text_hashes] using ih
      | some e => simpa [load_existing_text_hashes] using ih

/-- Witness for claim C2 at concrete records: a current-schema record keeps
its stored hash even though it differs from the recomputed one, and a
legacy record recomputes from its text. -/
theorem C2_seed_hash_choice_witness :
    seedHash { hash := some cOneA, authorsPresent := true, text := some cOneB } = cOneA ∧
    seedHash { hash := some cOneA, authorsPresent := false, text := some cOneB } =
      get_article_hash cOneB := by
  constructor
  · exact C2_seed_hash_choice.1
      { hash := some cOneA, authorsPresent := true, text := some cOneB }
      cOneA rfl (by decide) rfl
  · exact C2_seed_hash_choice.2.1
      { hash := some cOneA, authorsPresent := false, text := some cOneB } rfl

/-!
Claim C1.  A duplicate hash yields the skip outcome, with no save and an
unchanged index.
-/

/-- Claim C1: when the computed hash of an extracted article is already in
the dedup index, the loop iteration returns the skip outcome, save_article
is not invoked, and the index is returned unchanged. -/
theorem C1_duplicate_skip (urljoin : Str → Str → Str) (nowIso url : Str)
    (d : NodeList) (ok : Bool) (hashes : List Str)
    (hmem : (extract_article_data urljoin nowIso url d).hash ∈ hashes) :
    processArticle ok (some (extract_article_data urljoin nowIso url d)) hashes =
      (hashes, .skipDuplicate) ∧
    saveInvoked (processArticle ok
      (some (extract_article_data urljoin nowIso url d)) hashes).2 = false := by
  constructor
  · simp [processArticle, hmem]
  · simp [processArticle, hmem, saveInvoked]

/-- Witness for claim C1: the empty document extracts to the sentinel body,
and with its hash already present the iteration skips. -/
theorem C1_duplicate_skip_witness :
    processArticle true (some (extract_article_data ujId [] [] docEmpty))
        [get_article_hash DEFAULT_TEXT] =
      ([get_article_hash DEFAULT_TEXT], .skipDuplicate) :=
  (C1_duplicate_skip ujId [] [] docEmpty true [get_article_hash DEFAULT_TEXT]
    (by decide)).1

/-!
Claim C3.  A failed save leaves the index unchanged, and index membership
matches initial membership or a durable save.
-/

theorem savedHashes_cons (o : StepOutcome) (l : List StepOutcome) :
    savedHashes (o :: l) = savedHashes [o] ++ savedHashes l := by
  cases o <;> simp [savedHashes]

theorem processArticle_mem (ok : Bool) (ad : Option ArticleData)
    (hashes : List Str) (x : Str) :
    x ∈ (processArticle ok ad hashes).1 ↔
      x ∈ hashes ∨ x ∈ savedHashes [(processArticle ok ad hashes).2] := by
  cases ad with
  | none => simp [processArticle, savedHashes]
  | some a =>
    by_cases hm : a.hash ∈ hashes
    · simp [processArticle, hm, savedHashes]
    · by_cases hok : ok
      · subst hok
        simp only [processArticle, hm, if_false, if_true, if_neg hm]
        simp [savedHashes, List.mem_cons, or_comm]
      · simp [processArticle, hm, hok, savedHashes]

/-- Claim C3: when save_article raises, the surrounding handler catches the
exception before the hash insertion, so the dedup index is unchanged by the
iteration; consequently, over any run, a hash is in the final index exactly
when it was in the seed index or belongs to an article that was durably
saved. -/
theorem C3_save_failure_no_mutation :
    (∀ (a : ArticleData) (hashes : List Str),
      (processArticle false (some a) hashes).1 = hashes) ∧
    (∀ (steps : List (Bool × Option ArticleData)) (init : List Str) (x : Str),
      x ∈ (processArticles steps init).1 ↔
        x ∈ init ∨ x ∈ savedHashes (processArticles steps init).2) := by
  constructor
  · intro a hashes
    by_cases hm : a.hash ∈ hashes
    · simp [processArticle, hm]
    · simp [processArticle, hm]
  · intro steps
    induction steps with
    | nil => intro init x; simp [processArticles, savedHashes]
    | cons s rest ih =>
      intro init x
      obtain ⟨ok, ad⟩ := s
      simp only [processArticles]
      rw [ih, processArticle_mem,
        savedHashes_cons (processArticle ok ad init).2
          (processArticles rest (processArticle ok ad init).1).2,
        List.mem_append]
      tauto

/-!
Claim C8.  Shape of the digest and the record hash invariant.
-/

theorem beBytes_length (n v : Nat) : (beBytes n v).length = n := by
  induction n generalizing v with
  | zero => simp [beBytes]
  | succ m ih => simp [beBytes, ih]

theorem sha256Bytes_length (msg : List Nat) : (sha256Bytes msg).length = 32 := by
  unfold sha256Bytes
  rw [catLists_length (beBytes 4) 4 _ (fun x _ => beBytes_length 4 x)]
  rfl

theorem byteHex_length (b : Nat) : (byteHex b).length = 2 := by
  simp [byteHex]

theorem hexDigitChar_mem (n : Nat) : hexDigitChar n ∈ hexLowerChars := by
  unfold hexDigitChar
  split <;> decide

theorem get_article_hash_length (s : Str) : (get_article_hash s).length = 64 := by
  unfold get_article_hash
  rw [catLists_length byteHex 2 _ (fun x _ => byteHex_length x), sha256Bytes_length]

theorem get_article_hash_hex (s : Str) (c : Char) (hc : c ∈ get_article_hash s) :
    c ∈ hexLowerChars := by
  unfold get_article_hash at hc
  rcases (mem_catLists c _).mp hc with ⟨l, hl, hcl⟩
  rcases List.mem_map.mp hl with ⟨b, _, rfl⟩
  rcases List.mem_cons.mp hcl with h | h
  · exact h ▸ hexDigitChar_mem (b / 16 % 16)
  · rcases List.mem_cons.mp h with h' | h'
    · exact h' ▸ hexDigitChar_mem (b % 16)
    · cases h'

/-- Claim C8: every extracted record stores exactly the content hash of its
body text after sentinel substitution, and the hasher is a deterministic
pure function whose output is a fixed 64 character digest of lower-case
hexadecimal characters, hence 256 bits. -/
theorem C8_hash_invariant :
    (∀ (urljoin : Str → Str → Str) (nowIso url : Str) (d : NodeList),
      (extract_article_data urljoin nowIso url d).hash =
        get_article_hash (extract_article_data urljoin nowIso url d).text) ∧
    (∀ s : Str, (get_article_hash s).length = 64) ∧
    (∀ (s : Str) (c : Char), c ∈ get_article_hash s → c ∈ hexLowerChars) ∧
    (∀ s t : Str, s = t → get_article_hash s = get_article_hash t) := by
  refine ⟨?_, ?_, ?_, ?_⟩
  · intro urljoin nowIso url d
    rfl
  · exact get_article_hash_length
  · exact get_article_hash_hex
  · intro s t h
    rw [h]

/-- Witness for claim C8 at concrete inputs: the record of the empty
document and the first character of the digest of the sentinel text. -/
theorem C8_hash_invariant_witness :
    (extract_article_data ujId [] [] docEmpty).hash =
      get_article_hash (extract_article_data ujId [] [] docEmpty).text ∧
    (get_article_hash DEFAULT_TEXT).length = 64 ∧
    (get_article_hash DEFAULT_TEXT).headD '0' ∈ hexLowerChars ∧
    get_article_hash DEFAULT_TEXT = get_article_hash DEFAULT_TEXT := by
  refine ⟨C8_hash_invariant.1 ujId [] [] docEmpty, C8_hash_invariant.2.1 DEFAULT_TEXT, ?_, 
    C8_hash_invariant.2.2.2 DEFAULT_TEXT DEFAULT_TEXT rfl⟩
  exact C8_hash_invariant.2.2.1 DEFAULT_TEXT ((get_article_hash DEFAULT_TEXT).headD '0')
    (by decide)

/-!
Claim C4.  The body cascade breaks on the first container that merely has a
paragraph element, even when every paragraph text in it is empty, and the
whole-document fallback also applies when the chosen join is empty; this
refutes the claim as stated, and the amended description is proved
equivalent to the source behavior.
-/

/-- Counterexample to claim C4 as stated: in the document with a blank-only
article container, an article-body container holding text A, and a loose
paragraph holding text B, the claimed cascade yields A from the article-body
container, but the source takes the article container, obtains an empty
join, and falls back to joining every paragraph of the document. -/
theorem C4_body_cascade_counterexample :
    bodySpecClaim docBlankArticle = cOneA ∧
    bodyText docBlankArticle = cOneA ++ twoNewlines ++ cOneB ∧
    bodyText docBlankArticle ≠ bodySpecClaim docBlankArticle := by
  refine ⟨by decide, by decide, by decide⟩

theorem cascadeText_eq_find (sels : List Sel) (d : NodeList) :
    cascadeText sels d = (findContainerWithP sels d).map (fun e => joinParas (pFindAll e)) := by
  induction sels with
  | nil => simp [cascadeText, findContainerWithP]
  | cons sel rest ih =>
    simp only [cascadeText, findContainerWithP]
    cases selectOne sel d with
    | none => simpa using ih
    | some e =>
      by_cases hp : (pFindAll e).isEmpty
      · simpa [hp] using ih
      · simp [hp]

/-- Claim C4 amended: the body text is taken from the first container in
the fixed order that contains at least one paragraph element, joining its
non-empty trimmed paragraph texts with a blank line; when no container has
a paragraph, or the join from the chosen container is empty, the fallback
joins all paragraph elements of the whole document; when that is still
empty the body is the sentinel. -/
theorem joinParas_nil : joinParas [] = [] := rfl

theorem C4_body_cascade_amended (d : NodeList) : bodyText d = bodySpecAmended d := by
  unfold bodyText bodySpecAmended
  rw [cascadeText_eq_find]
  cases hf : findContainerWithP text_selectors d with
  | none =>
    simp only [Option.map_none, optTruthy, Bool.false_eq_true, if_false, ne_eq,
      not_true_eq_false, ite_false]
    by_cases hps : (pFindAllDoc d).isEmpty
    · have h0 : pFindAllDoc d = [] := by
        cases h : pFindAllDoc d with
        | nil => rfl
        | cons x xs => rw [h] at hps; simp at hps
      rw [h0]
      simp [pyOrStr, joinParas_nil]
    · by_cases hfb : joinParas (pFindAllDoc d) = []
      · simp [pyOrStr, hps, hfb]
      · simp [pyOrStr, hps, hfb]
  | some e =>
    simp only [Option.map_some, optTruthy]
    by_cases hj : joinParas (pFindAll e) = []
    · by_cases hps : (pFindAllDoc d).isEmpty
      · have h0 : pFindAllDoc d = [] := by
          cases h : pFindAllDoc d with
          | nil => rfl
          | cons x xs => rw [h] at hps; simp at hps
        simp [pyOrStr, hj, h0, joinParas_nil]
      · by_cases hfb : joinParas (pFindAllDoc d) = []
        · simp [pyOrStr, hj, hps, hfb]
        · simp [pyOrStr, hj, hps, hfb]
    · simp [pyOrStr, hj]

/-!
Claim C5.  The author loop advances past a group whose bylines normalize to
no names, so the group chosen is the first yielding a normalized author,
not the first yielding a non-empty byline string.
-/

/-- Counterexample to claim C5 as stated: in the document whose author
class element reads CNN while a later-group element carries the name Jane,
the first group yields the non-empty byline CNN, which normalizes to no
names, yet the extracted authors are taken from the second group. -/
theorem C5_author_group_counterexample :
    (selectAll (.cls sAuthor) docCnnByline).any
      (fun e => decide (spaceJoinStripped e ≠ [])) = true ∧
    authorsSpecClaim author_selectors docCnnByline = [] ∧
    collectAuthors author_selectors docCnnByline = [sJane] ∧
    collectAuthors author_selectors docCnnByline ≠
      authorsSpecClaim author_selectors docCnnByline := by
  refine ⟨by decide, by decide, by decide, by decide⟩

theorem addAuthors_nodup (names : List Str) (acc : List Str) (h : acc.Nodup) :
    (addAuthors acc names).Nodup := by
  induction names generalizing acc with
  | nil => simpa [addAuthors] using h
  | cons n rest ih =>
    by_cases hm : n ∈ acc
    · simpa [addAuthors, hm] using ih acc h
    · have hnew : (acc ++ [n]).Nodup := by
        simp [List.nodup_append, h, hm]
      simpa [addAuthors, hm] using ih (acc ++ [n]) hnew

theorem addFromElems_nodup (es : List Node) (acc : List Str) (h : acc.Nodup) :
    (addFromElems acc es).Nodup := by
  induction es generalizing acc with
  | nil => simpa [addFromElems] using h
  | cons e rest ih =>
    simpa [addFromElems] using
      ih (addAuthors acc (split_author_text (spaceJoinStripped e)))
        (addAuthors_nodup _ acc h)

/-- Claim C5 amended: the authors of a document are those of the first
author selector group, in the fixed order, that yields at least one
normalized author name; once a group yields any author no later group is
queried, and the names of the winning group are collected in document order
and de-duplicated by exact string match, so the result never holds a
repeated name. -/
theorem C5_author_group_amended :
    (∀ (sels : List Sel) (d : NodeList),
      collectAuthors sels d = authorsSpecAmended sels d) ∧
    (∀ (sels : List Sel) (d : NodeList), (collectAuthors sels d).Nodup) := by
  constructor
  · intro sels d
    induction sels with
    | nil => rfl
    | cons sel rest ih =>
      simp only [collectAuthors, authorsSpecAmended, groupAuthors]
      by_cases hg : addFromElems [] (selectAll sel d) = []
      · simp [hg, ih]
      · simp [hg]
  · intro sels d
    induction sels with
    | nil => simp [collectAuthors]
    | cons sel rest ih =>
      simp only [collectAuthors]
      by_cases hg : addFromElems [] (selectAll sel d) = []
      · simpa [hg] using ih
      · simpa [hg] using addFromElems_nodup (selectAll sel d) [] List.nodup_nil

/-!
Claim C10.  Documents in which no strategy and no fallback produce any
non-empty paragraph text all hash to the digest of the sentinel body, so
after one is accepted every later one is skipped as a duplicate, in the
same run and, through the stored record of the accepted article, in a
later run.
-/

theorem cascade_bodyless (d : NodeList) (sels : List Sel)
    (h : sels.all (fun sel =>
      match selectOne sel d with
      | some e => (joinParas (pFindAll e)).isEmpty
      | none => true) = true) :
    cascadeText sels d = none ∨ cascadeText sels d = some [] := by
  induction sels with
  | nil => left; rfl
  | cons sel rest ih =>
    rw [List.all_cons, Bool.and_eq_true] at h
    obtain ⟨hsel, hrest⟩ := h
    simp only [cascadeText]
    cases hone : selectOne sel d with
    | none => exact ih hrest
    | some e =>
      rw [hone] at hsel
      by_cases hp : (pFindAll e).isEmpty
      · simpa [hp] using ih hrest
      · right
        simp only [hp, if_false]
        simpa [List.isEmpty_iff] using hsel

theorem bodyText_of_bodyless (d : NodeList) (h : bodylessDoc d = true) :
    bodyText d = DEFAULT_TEXT := by
  unfold bodylessDoc at h
  rw [Bool.and_eq_true] at h
  obtain ⟨hsels, hfb⟩ := h
  unfold bodyText
  rcases cascade_bodyless d text_selectors hsels with hc | hc
  · rw [hc]
    simp only [optTruthy, Bool.false_eq_true, if_false]
    by_cases hps : (pFindAllDoc d).isEmpty
    · simp [hps, pyOrStr]
    · simp only [hps, if_false]
      rw [List.isEmpty_iff] at hfb
      simp [pyOrStr, hfb]
  · rw [hc]
    simp only [optTruthy]
    by_cases hps : (pFindAllDoc d).isEmpty
    · simp [hps, pyOrStr]
    · simp only [if_false, hps]
      rw [List.isEmpty_iff] at hfb
      simp [pyOrStr, hfb]

theorem processArticle_mono (ok : Bool) (ad : Option ArticleData)
    (hs : List Str) (x : Str) (h : x ∈ hs) : x ∈ (processArticle ok ad hs).1 := by
  cases ad with
  | none => simpa [processArticle] using h
  | some a =>
    by_cases hm : a.hash ∈ hs
    · simpa [processArticle, hm] using h
    · cases ok with
      | true => simp [processArticle, hm]; right; exact h
      | false => simpa [processArticle, hm] using h

theorem processArticles_mono (steps : List (Bool × Option ArticleData))
    (hs : List Str) (x : Str) (h : x ∈ hs) : x ∈ (processArticles steps hs).1 := by
  induction steps generalizing hs with
  | nil => simpa [processArticles] using h
  | cons s rest ih =>
    obtain ⟨ok, ad⟩ := s
    simp only [processArticles]
    exact ih _ (processArticle_mono ok ad hs x h)

theorem load_append_some (pre post : List (Option StoredRecord)) (d : StoredRecord) :
    load_existing_text_hashes (pre ++ some d :: post) =
      load_existing_text_hashes pre ++
        seedHash d :: load_existing_text_hashes post := by
  induction pre with
  | nil => simp [load_existing_text_hashes]
  | cons o rest ih =>
    cases o with
    | none => simpa [load_existing_text_hashes] using ih
    | some e => simpa [load_existing_text_hashes] using ih

/-- Claim C10: two documents in which no body strategy and no whole-document
fallback yield any non-empty paragraph text both receive the hash of the
sentinel body, regardless of URL, title or authors; once the first is
accepted into the index, the second is skipped as a duplicate after any
further processing in the same run, and likewise in a later run whose index
was seeded from the stored record of the first. -/
theorem C10_bodyless_collision (urljoin : Str → Str → Str)
    (t1 t2 u1 u2 : Str) (d1 d2 : NodeList)
    (h1 : bodylessDoc d1 = true) (h2 : bodylessDoc d2 = true)
    (hashes0 : List Str)
    (h0 : (extract_article_data urljoin t1 u1 d1).hash ∉ hashes0) :
    (extract_article_data urljoin t1 u1 d1).hash = get_article_hash DEFAULT_TEXT ∧
    (extract_article_data urljoin t2 u2 d2).hash =
      (extract_article_data urljoin t1 u1 d1).hash ∧
    processArticle true (some (extract_article_data urljoin t1 u1 d1)) hashes0 =
      ((extract_article_data urljoin t1 u1 d1).hash :: hashes0,
        .savedNew (extract_article_data urljoin t1 u1 d1)) ∧
    (∀ (mid : List (Bool × Option ArticleData)) (ok2 : Bool),
      (processArticle ok2 (some (extract_article_data urljoin t2 u2 d2))
        (processArticles mid
          ((extract_article_data urljoin t1 u1 d1).hash :: hashes0)).1).2 =
        .skipDuplicate) ∧
    (∀ (pre post : List (Option StoredRecord)) (ok3 : Bool),
      (processArticle ok3 (some (extract_article_data urljoin t2 u2 d2))
        (load_existing_text_hashes (pre ++
          some { hash := some (extract_article_data urljoin t1 u1 d1).hash
                 authorsPresent := true
                 text := some (extract_article_data urljoin t1 u1 d1).text } ::
          post))).2 = .skipDuplicate) := by
  have hb1 : (extract_article_data urljoin t1 u1 d1).hash =
      get_article_hash DEFAULT_TEXT := by
    show get_article_hash (bodyText d1) = get_article_hash DEFAULT_TEXT
    rw [bodyText_of_bodyless d1 h1]
  have hb2 : (extract_article_data urljoin t2 u2 d2).hash =
      get_article_hash DEFAULT_TEXT := by
    show get_article_hash (bodyText d2) = get_article_hash DEFAULT_TEXT
    rw [bodyText_of_bodyless d2 h2]
  refine ⟨hb1, by rw [hb1, hb2], ?_, ?_, ?_⟩
  · simp [processArticle, h0]
  · intro mid ok2
    have hm : (extract_article_data urljoin t2 u2 d2).hash ∈
        (processArticles mid
          ((extract_article_data urljoin t1 u1 d1).hash :: hashes0)).1 := by
      apply processArticles_mono
      rw [hb2, ← hb1]
      exact List.mem_cons_self _ _
    simp [processArticle, hm]
  · intro pre post ok3
    have hne : (extract_article_data urljoin t1 u1 d1).hash ≠ [] := by
      intro hcontra
      have := get_article_hash_length (extract_article_data urljoin t1 u1 d1).text
      have hself : (extract_article_data urljoin t1 u1 d1).hash =
          get_article_hash (extract_article_data urljoin t1 u1 d1).text := rfl
      rw [← hself, hcontra] at this
      simp at this
    have hseed : seedHash
        { hash := some (extract_article_data urljoin t1 u1 d1).hash
          authorsPresent := true
          text := some (extract_article_data urljoin t1 u1 d1).text } =
        (extract_article_data urljoin t1 u1 d1).hash := by
      simp [seedHash, hne]
    have hm : (extract_article_data urljoin t2 u2 d2).hash ∈
        load_existing_text_hashes (pre ++
          some { hash := some (extract_article_data urljoin t1 u1 d1).hash
                 authorsPresent := true
                 text := some (extract_article_data urljoin t1 u1 d1).text } :: post) := by
      rw [load_append_some, hseed]
      rw [hb2, ← hb1]
      simp
    simp [processArticle, hm]

/-- Witness for claim C10: the blank-paragraph document and the empty
document, processed from the empty index with an accepted first article and
an immediately following second article, and a later run seeded from the
single stored record. -/
theorem C10_bodyless_collision_witness :
    (extract_article_data ujId [] [] docOnlyBlankPara).hash =
      get_article_hash DEFAULT_TEXT ∧
    (processArticle true (some (extract_article_data ujId [] [] docEmpty))
      (processArticles []
        ((extract_article_data ujId [] [] docOnlyBlankPara).hash :: [])).1).2 =
      .skipDuplicate ∧
    (processArticle true (some (extract_article_data ujId [] [] docEmpty))
      (load_existing_text_hashes ([] ++
        some { hash := some (extract_article_data ujId [] [] docOnlyBlankPara).hash
               authorsPresent := true
               text := some (extract_article_data ujId [] [] docOnlyBlankPara).text } ::
        []))).2 = .skipDuplicate := by
  have h := C10_bodyless_collision ujId [] [] [] [] docOnlyBlankPara docEmpty
    (by decide) (by decide) [] (by decide)
  exact ⟨h.1, h.2.2.2.1 [] true, h.2.2.2.2 [] [] true⟩

/-!
Claim C6.  Idempotence of the author normalizer on its own outputs.
-/

theorem headNonSpc_dropWhile (l : Str) : headNonSpc (l.dropWhile isSpc) = true := by
  induction l with
  | nil => rfl
  | cons c rest ih =>
    by_cases h : isSpc c
    · simpa [List.dropWhile, h] using ih
    · simp [List.dropWhile, h, headNonSpc]

theorem dropWhile_of_headNonSpc (l : Str) (h : headNonSpc l = true) :
    l.dropWhile isSpc = l := by
  cases l with
  | nil => rfl
  | cons c rest =>
    simp only [headNonSpc, Bool.not_eq_true'] at h
    simp [List.dropWhile, h]

theorem pyStrip_of_trimmed (l : Str) (h : trimmedStr l = true) : pyStrip l = l := by
  unfold trimmedStr at h
  rw [Bool.and_eq_true] at h
  unfold pyStrip dropEndWhile
  rw [dropWhile_of_headNonSpc l h.1, dropWhile_of_headNonSpc l.reverse h.2,
    List.reverse_reverse]

theorem headNonSpc_take (l : Str) (k : Nat) (h : headNonSpc l = true) :
    headNonSpc (l.take k) = true := by
  cases l with
  | nil => simp [headNonSpc]
  | cons c rest =>
    cases k with
    | zero => rfl
    | succ m => simpa [headNonSpc] using h

theorem dropWhile_eq_drop (p : Char → Bool) (l : Str) :
    ∃ k, l.dropWhile p = l.drop k := by
  induction l with
  | nil => exact ⟨0, rfl⟩
  | cons c rest ih =>
    by_cases h : p c
    · obtain ⟨k, hk⟩ := ih
      exact ⟨k + 1, by simpa [List.dropWhile, h] using hk⟩
    · exact ⟨0, by simp [List.dropWhile, h]⟩

theorem reverse_drop_reverse (l : Str) (k : Nat) :
    (l.reverse.drop k).reverse = l.take (l.length - k) := by
  rw [List.reverse_eq_iff, List.reverse_take]
  by_cases h : k ≤ l.length
  · congr 1
    omega
  · rw [List.drop_eq_nil_of_le, List.drop_eq_nil_of_le]
    · simp
      omega
    · simp
      omega

theorem dropEndWhile_eq_take (p : Char → Bool) (l : Str) :
    ∃ m, dropEndWhile p l = l.take m := by
  obtain ⟨k, hk⟩ := dropWhile_eq_drop p l.reverse
  exact ⟨l.length - k, by rw [dropEndWhile, hk, reverse_drop_reverse]⟩

theorem headNonSpc_dropEndWhile (p : Char → Bool) (l : Str)
    (h : headNonSpc l = true) : headNonSpc (dropEndWhile p l) = true := by
  obtain ⟨m, hm⟩ := dropEndWhile_eq_take p l
  rw [hm]
  exact headNonSpc_take l m h

theorem trimmedStr_pyStrip (l : Str) : trimmedStr (pyStrip l) = true := by
  unfold trimmedStr pyStrip
  rw [Bool.and_eq_true]
  refine ⟨headNonSpc_dropEndWhile isSpc _ (headNonSpc_dropWhile l), ?_⟩
  show headNonSpc (dropEndWhile isSpc (l.dropWhile isSpc)).reverse = true
  unfold dropEndWhile
  rw [List.reverse_reverse]
  exact headNonSpc_dropWhile _

theorem mem_pyStrip (c : Char) (l : Str) (h : c ∈ pyStrip l) : c ∈ l := by
  unfold pyStrip dropEndWhile at h
  rw [List.mem_reverse] at h
  have h2 := (List.dropWhile_sublist isSpc).mem h
  rw [List.mem_reverse] at h2
  exact (List.dropWhile_sublist isSpc).mem h2

theorem pyStrip_cons_space (l : Str) : pyStrip (' ' :: l) = pyStrip l := rfl

/-!
Lemmas on comma splitting and component joining.
-/

theorem splitComma_ne_nil (l : Str) : splitComma l ≠ [] := by
  cases l with
  | nil => simp [splitComma]
  | cons c r =>
    by_cases h : c = ','
    · simp [splitComma, h]
    · simp only [splitComma, h, if_false]
      cases hr : splitComma r with
      | nil => simp
      | cons p ps => simp

theorem mem_splitComma_no_comma (l : Str) (p : Str) (hp : p ∈ splitComma l) :
    ',' ∉ p := by
  induction l generalizing p with
  | nil =>
    simp only [splitComma, List.mem_singleton] at hp
    simp [hp]
  | cons c r ih =>
    by_cases h : c = ','
    · simp only [splitComma, h, if_true, List.mem_cons] at hp
      rcases hp with hp | hp
      · simp [hp]
      · exact ih p hp
    · simp only [splitComma, h, if_false] at hp
      cases hr : splitComma r with
      | nil => exact absurd hr (splitComma_ne_nil r)
      | cons q qs =>
        rw [hr] at hp
        rcases List.mem_cons.mp hp with hp | hp
        · subst hp
          intro hmem
          rcases List.mem_cons.mp hmem with hc | hc
          · exact h hc.symm
          · exact ih q (hr ▸ List.mem_cons_self q qs) hc
        · exact ih p (hr ▸ List.mem_cons_of_mem q hp)

theorem splitComma_append_comma (p l : Str) (hp : ',' ∉ p) :
    splitComma (p ++ ',' :: l) = p :: splitComma l := by
  induction p with
  | nil => simp [splitComma]
  | cons c q ih =>
    have hc : c ≠ ',' := fun h => hp (h ▸ List.mem_cons_self c q)
    have hq : ',' ∉ q := fun h => hp (List.mem_cons_of_mem c h)
    simp only [List.cons_append, splitComma, hc, if_false]
    rw [show splitComma (q.append (',' :: l)) = splitComma (q ++ ',' :: l) from rfl, ih hq]

theorem splitComma_commaFree (l : Str) (h : ',' ∉ l) : splitComma l = [l] := by
  induction l with
  | nil => rfl
  | cons c r ih =>
    have hc : c ≠ ',' := fun hx => h (hx ▸ List.mem_cons_self c r)
    have hr : ',' ∉ r := fun hx => h (List.mem_cons_of_mem c hx)
    simp [splitComma, hc, ih hr]

theorem joinComps_ne_nil (c0 : Str) (ct : List Str) (h : c0 ≠ []) :
    joinComps c0 ct ≠ [] := by
  cases ct with
  | nil => simpa [joinComps] using h
  | cons c1 rest => simp [joinComps, h]

theorem joinComps_cons (c0 c1 : Str) (rest : List Str) :
    joinComps c0 (c1 :: rest) = c0 ++ ',' :: ' ' :: joinComps c1 rest := by
  show c0 ++ commaSpace ++ joinComps c1 rest = _
  simp [commaSpace]

theorem splitComma_joinComps (c0 : Str) (ct : List Str)
    (h0 : ',' ∉ c0) (hct : ∀ c ∈ ct, ',' ∉ c) :
    splitComma (joinComps c0 ct) = c0 :: ct.map (fun c => ' ' :: c) := by
  induction ct generalizing c0 with
  | nil => simp [joinComps, splitComma_commaFree c0 h0]
  | cons c1 rest ih =>
    rw [joinComps_cons, splitComma_append_comma c0 _ h0]
    have h1 : ',' ∉ c1 := hct c1 (List.mem_cons_self c1 rest)
    have hrest : ∀ c ∈ rest, ',' ∉ c := fun c hc => hct c (List.mem_cons_of_mem c1 hc)
    have step : splitComma (' ' :: joinComps c1 rest) =
        (' ' :: c1) :: rest.map (fun c => ' ' :: c) := by
      have hsp : ¬((' ' : Char) = ',') := by decide
      simp only [splitComma, hsp, if_false]
      rw [ih c1 h1 hrest]
    rw [step]
    simp

theorem headNonSpc_append (l l2 : Str) (h : l ≠ []) :
    headNonSpc (l ++ l2) = headNonSpc l := by
  cases l with
  | nil => exact absurd rfl h
  | cons c rest => simp [headNonSpc]

theorem headNonSpc_joinComps (c0 : Str) (ct : List Str) (h : c0 ≠ []) :
    headNonSpc (joinComps c0 ct) = headNonSpc c0 := by
  cases ct with
  | nil => rfl
  | cons c1 rest =>
    show headNonSpc (c0 ++ commaSpace ++ joinComps c1 rest) = headNonSpc c0
    rw [List.append_assoc, headNonSpc_append c0 _ h]

theorem revHead_joinComps (c0 : Str) (ct : List Str)
    (h0 : c0 ≠ []) (hct : ∀ c ∈ ct, c ≠ []) :
    headNonSpc (joinComps c0 ct).reverse = headNonSpc (lastOf c0 ct).reverse := by
  induction ct generalizing c0 with
  | nil => rfl
  | cons c1 rest ih =>
    show headNonSpc (c0 ++ commaSpace ++ joinComps c1 rest).reverse = _
    have h1 : c1 ≠ [] := hct c1 (List.mem_cons_self c1 rest)
    have hrest : ∀ c ∈ rest, c ≠ [] := fun c hc => hct c (List.mem_cons_of_mem c1 hc)
    have hj : joinComps c1 rest ≠ [] := joinComps_ne_nil c1 rest h1
    have hrev : (joinComps c1 rest).reverse ≠ [] := by
      simpa using hj
    rw [List.reverse_append, headNonSpc_append _ _ hrev]
    exact ih c1 h1 hrest

theorem lastOf_mem_tail : ∀ (ct : List Str) (c0 : Str), ct ≠ [] → lastOf c0 ct ∈ ct
  | [], _, h => absurd rfl h
  | [c1], c0, _ => by simp [lastOf]
  | c1 :: c2 :: rest, c0, _ => by
    have := lastOf_mem_tail (c2 :: rest) c1 (by simp)
    show lastOf c1 (c2 :: rest) ∈ c1 :: c2 :: rest
    exact List.mem_cons_of_mem c1 this

theorem trimmedStr_joinComps (c0 : Str) (ct : List Str)
    (h0 : GoodComp c0) (hct : ∀ c ∈ ct, GoodComp c) :
    trimmedStr (joinComps c0 ct) = true := by
  have hEnds : ∀ x : Str, trimmedStr x = true →
      headNonSpc x = true ∧ headNonSpc x.reverse = true := by
    intro x hx
    unfold trimmedStr at hx
    exact (Bool.and_eq_true _ _).mp hx
  unfold trimmedStr
  rw [Bool.and_eq_true]
  constructor
  · rw [headNonSpc_joinComps c0 ct h0.1]
    exact (hEnds c0 h0.2.1).1
  · rw [revHead_joinComps c0 ct h0.1 (fun c hc => (hct c hc).1)]
    cases ct with
    | nil => exact (hEnds c0 h0.2.1).2
    | cons c1 rest =>
      have hmem : lastOf c0 (c1 :: rest) ∈ c1 :: rest :=
        lastOf_mem_tail (c1 :: rest) c0 (by simp)
      exact (hEnds _ (hct _ hmem).2.1).2

/-!
Lemmas on the wire-service suffix substitution.
-/

theorem cnnSub_commaFree (l : Str) (h : ',' ∉ l) : cnnSub l = l := by
  induction l with
  | nil => rfl
  | cons c rest ih =>
    have hc : c ≠ ',' := fun hx => h (hx ▸ List.mem_cons_self c rest)
    have hr : ',' ∉ rest := fun hx => h (List.mem_cons_of_mem c hx)
    simp [cnnSub, hc, ih hr]

theorem cnnSub_append (p l : Str) (hp : ',' ∉ p) :
    cnnSub (p ++ l) = p ++ cnnSub l := by
  induction p with
  | nil => rfl
  | cons c q ih =>
    have hc : c ≠ ',' := fun hx => hp (hx ▸ List.mem_cons_self c q)
    have hq : ',' ∉ q := fun hx => hp (List.mem_cons_of_mem c hx)
    simp only [List.cons_append, cnnSub, List.append_eq]
    rw [if_neg (by simp [hc]), ih hq]

theorem dropWhile_ne_nil_of_comma (l : Str) (h : ',' ∈ l) :
    l.dropWhile isSpc ≠ [] := by
  intro hx
  have := List.dropWhile_eq_nil_iff.mp hx ',' h
  simp [isSpc] at this

theorem all_spc_of_dropWhile_nil (l : Str) (h : l.dropWhile isSpc = []) :
    ∀ c ∈ l, isSpc c = true := List.dropWhile_eq_nil_iff.mp h

theorem revHead_spc_of_tail (a b c : Char) (t : Str) (ht : t ≠ [])
    (hall : ∀ x ∈ t, isSpc x = true) :
    headNonSpc (a :: b :: c :: t).reverse = false := by
  cases hrt : t.reverse with
  | nil => exact absurd (by simpa using hrt) ht
  | cons x xs =>
    have hx : x ∈ t := by
      have : x ∈ t.reverse := by rw [hrt]; exact List.mem_cons_self x xs
      simpa using this
    have : isSpc x = true := hall x hx
    simp [List.reverse_cons, hrt, headNonSpc, this]

theorem cnnTailMatch_space (l : Str) : cnnTailMatch (' ' :: l) = cnnTailMatch l := rfl

theorem headNonSpc_of_good (c : Str) (h : GoodComp c) : headNonSpc c = true := by
  have := h.2.1
  unfold trimmedStr at this
  exact ((Bool.and_eq_true _ _).mp this).1

theorem cnnTailMatch_of_trimmed (c1 : Str) (ht : trimmedStr c1 = true) :
    cnnTailMatch c1 = isCnnWord c1 := by
  have hdw : c1.dropWhile isSpc = c1 :=
    dropWhile_of_headNonSpc c1 ((Bool.and_eq_true _ _).mp ht).1
  unfold cnnTailMatch
  rw [hdw]
  cases c1 with
  | nil => rfl
  | cons a r1 =>
    cases r1 with
    | nil => rfl
    | cons b r2 =>
      cases r2 with
      | nil => rfl
      | cons c t =>
        cases t with
        | nil => simp [isCnnWord]
        | cons x xs =>
          have hne : (x :: xs : Str) ≠ [] := by simp
          have hnd : ¬((x :: xs : Str).dropWhile isSpc = []) := by
            intro hd
            have hall := all_spc_of_dropWhile_nil _ hd
            have hrev := ((Bool.and_eq_true _ _).mp ht).2
            rw [revHead_spc_of_tail a b c (x :: xs) hne hall] at hrev
            cases hrev
          have hie : ((x :: xs : Str).dropWhile isSpc).isEmpty = false := by
            cases hdd : (x :: xs : Str).dropWhile isSpc with
            | nil => exact absurd hdd hnd
            | cons y ys => rfl
          simp [isCnnWord, hie]

theorem cnnTailMatch_join_cons (c1 c2 : Str) (rest2 : List Str)
    (h1 : GoodComp c1) (_h2 : GoodComp c2) :
    cnnTailMatch (joinComps c1 (c2 :: rest2)) = false := by
  have hhead : headNonSpc (joinComps c1 (c2 :: rest2)) = true := by
    rw [headNonSpc_joinComps c1 _ h1.1]
    exact headNonSpc_of_good c1 h1
  have hdw := dropWhile_of_headNonSpc _ hhead
  unfold cnnTailMatch
  rw [hdw, joinComps_cons]
  rcases c1 with _ | ⟨a, _ | ⟨b, _ | ⟨c, t⟩⟩⟩
  · exact absurd rfl h1.1
  · simp
  · simp
  · show (match (a :: b :: c :: (t ++ ',' :: ' ' :: joinComps c2 rest2) : Str) with
      | a :: b :: c :: rest =>
        (a == 'c' || a == 'C') && (b == 'n' || b == 'N') && (c == 'n' || c == 'N')
          && (rest.dropWhile isSpc).isEmpty
      | _ => false) = false
    have hcm : ',' ∈ (t ++ ',' :: ' ' :: joinComps c2 rest2 : Str) := by
      simp
    have hnd := dropWhile_ne_nil_of_comma _ hcm
    have hie : ((t ++ ',' :: ' ' :: joinComps c2 rest2 : Str).dropWhile isSpc).isEmpty
        = false := by
      cases hdd : (t ++ ',' :: ' ' :: joinComps c2 rest2 : Str).dropWhile isSpc with
      | nil => exact absurd hdd hnd
      | cons y ys => rfl
    simp [hie]

theorem cnnSub_comma_space (x : Str) :
    cnnSub (',' :: ' ' :: x) =
      if cnnTailMatch x = true then [] else ',' :: ' ' :: cnnSub x := by
  show (if (decide ((',' : Char) = ',') && cnnTailMatch (' ' :: x)) = true then []
    else ',' :: cnnSub (' ' :: x)) = _
  rw [cnnTailMatch_space]
  rw [show decide ((',' : Char) = ',') = true from by decide, Bool.true_and]
  by_cases h : cnnTailMatch x = true
  · rw [if_pos h, if_pos h]
  · rw [if_neg h, if_neg h]
    rfl

theorem cnnSub_joinComps (c0 : Str) (ct : List Str)
    (h0 : GoodComp c0) (hct : ∀ c ∈ ct, GoodComp c) :
    cnnSub (joinComps c0 ct) =
      if ct ≠ [] ∧ isCnnWord (lastOf c0 ct) = true then joinComps c0 ct.dropLast
      else joinComps c0 ct := by
  induction ct generalizing c0 with
  | nil =>
    show cnnSub c0 = _
    simp [cnnSub_commaFree c0 h0.2.2, joinComps]
  | cons c1 rest ih =>
    have h1 : GoodComp c1 := hct c1 (List.mem_cons_self c1 rest)
    have hrest : ∀ c ∈ rest, GoodComp c := fun c hc => hct c (List.mem_cons_of_mem c1 hc)
    rw [joinComps_cons, cnnSub_append c0 _ h0.2.2, cnnSub_comma_space]
    cases rest with
    | nil =>
      rw [show joinComps c1 [] = c1 from rfl, cnnTailMatch_of_trimmed c1 h1.2.1]
      by_cases hcw : isCnnWord c1 = true
      · rw [if_pos hcw, if_pos ⟨by simp, by simpa [lastOf] using hcw⟩]
        simp [joinComps]
      · rw [if_neg hcw, cnnSub_commaFree c1 h1.2.2,
          if_neg (fun hcon => hcw (by simpa [lastOf] using hcon.2))]
    | cons c2 rest2 =>
      have h2 : GoodComp c2 := hrest c2 (List.mem_cons_self c2 rest2)
      rw [cnnTailMatch_join_cons c1 c2 rest2 h1 h2, if_neg (by simp),
        ih c1 h1 hrest]
      by_cases hcw : isCnnWord (lastOf c1 (c2 :: rest2)) = true
      · rw [if_pos ⟨by simp, hcw⟩, if_pos ⟨by simp, by simpa [lastOf] using hcw⟩]
        rw [show (c1 :: c2 :: rest2 : List Str).dropLast = c1 :: (c2 :: rest2).dropLast
          from rfl, joinComps_cons]
      · rw [if_neg (fun hcon => hcw hcon.2),
          if_neg (fun hcon => hcw (by simpa [lastOf] using hcon.2))]

theorem suffixEntry_not_cnn (c : Str) (h : isSuffixEntry c = true) :
    isCnnWord c = false := by
  rcases c with _ | ⟨a, _ | ⟨b, _ | ⟨d, _ | ⟨x, t⟩⟩⟩⟩
  · rfl
  · rfl
  · rfl
  · by_contra hx
    rw [Bool.not_eq_false] at hx
    simp only [isCnnWord, Bool.and_eq_true, Bool.or_eq_true, beq_iff_eq] at hx
    obtain ⟨⟨ha, hb⟩, hd⟩ := hx
    rcases ha with ha | ha <;> rcases hb with hb | hb <;> rcases hd with hd | hd <;>
      subst ha <;> subst hb <;> subst hd <;> exact absurd h (by decide)
  · rfl

/-!
Lemmas on the component walk.
-/

theorem joinComps_append_one (c0 : Str) (ds : List Str) (e : Str) :
    joinComps c0 (ds ++ [e]) = joinComps c0 ds ++ commaSpace ++ e := by
  induction ds generalizing c0 with
  | nil => rfl
  | cons d rest ih =>
    rw [List.cons_append, joinComps_cons, joinComps_cons, ih d]
    simp [commaSpace]

theorem walkEntries_inv : ∀ (es : List Str) (c0 : Str) (ds : List Str),
    (∀ e ∈ es, GoodComp e) → GoodComp c0 →
    (∀ c ∈ ds, GoodComp c ∧ isSuffixEntry c = true) →
    ∀ a ∈ walkEntries es (joinComps c0 ds), EntryInv a
  | [], c0, ds, _, h0, hds => by
    intro a ha
    have hne : joinComps c0 ds ≠ [] := joinComps_ne_nil c0 ds h0.1
    simp only [walkEntries, if_neg hne] at ha
    rw [List.mem_singleton] at ha
    subst ha
    exact ⟨c0, ds, rfl, h0, fun c hc => (hds c hc).1, Or.inr (fun c hc => (hds c hc).2)⟩
  | e :: rest, c0, ds, hes, h0, hds => by
    intro a ha
    have hne : joinComps c0 ds ≠ [] := joinComps_ne_nil c0 ds h0.1
    have he : GoodComp e := hes e (List.mem_cons_self e rest)
    have hrest : ∀ x ∈ rest, GoodComp x := fun x hx => hes x (List.mem_cons_of_mem e hx)
    simp only [walkEntries] at ha
    by_cases hsuf : isSuffixEntry e = true
    · rw [if_pos] at ha
      · rw [← joinComps_append_one] at ha
        exact walkEntries_inv rest c0 (ds ++ [e]) hrest h0
          (fun c hc => by
            rcases List.mem_append.mp hc with hc | hc
            · exact hds c hc
            · rw [List.mem_singleton] at hc
              subst hc
              exact ⟨he, hsuf⟩) a ha
      · simp [hsuf, hne]
    · rw [if_neg, if_neg hne] at ha
      · rcases List.mem_cons.mp ha with ha | ha
        · subst ha
          exact ⟨c0, ds, rfl, h0, fun c hc => (hds c hc).1,
            Or.inr (fun c hc => (hds c hc).2)⟩
        · exact walkEntries_inv rest e [] hrest he (by simp)
            a (by simpa [joinComps] using ha)
      · simp [hsuf]

theorem comma_parts_good (part : Str) :
    ∀ c ∈ ((splitComma part).map pyStrip).filter (fun x => decide (x ≠ [])), GoodComp c := by
  intro c hc
  rw [List.mem_filter] at hc
  obtain ⟨hmem, hne⟩ := hc
  rw [List.mem_map] at hmem
  obtain ⟨y, hy, rfl⟩ := hmem
  have hne' : pyStrip y ≠ [] := by simpa using hne
  refine ⟨hne', trimmedStr_pyStrip y, ?_⟩
  intro hcm
  exact mem_splitComma_no_comma part y hy (mem_pyStrip ',' y hcm)

theorem processPart_inv (hc : Bool) (np : Nat) (part : Str) :
    ∀ a ∈ processPart hc np part, EntryInv a := by
  intro a ha
  have hgood := comma_parts_good part
  unfold processPart at ha
  cases hcp : ((splitComma part).map pyStrip).filter (fun x => decide (x ≠ [])) with
  | nil =>
    simp only [hcp] at ha
    cases ha
  | cons c0 ctail =>
    simp only [hcp] at ha hgood
    have h0 : GoodComp c0 := hgood c0 (List.mem_cons_self _ _)
    have hct : ∀ c ∈ ctail, GoodComp c := fun c hcm => hgood c (List.mem_cons_of_mem _ hcm)
    by_cases hco : hc = false ∧ np = 1 ∧ ctail.length = 1
    · rw [if_pos hco] at ha
      obtain ⟨-, -, hlen⟩ := hco
      cases ctail with
      | nil => simp at hlen
      | cons c1 rest =>
        cases rest with
        | nil =>
          rw [List.mem_singleton] at ha
          subst ha
          exact ⟨c0, [c1], by simp [joinComps, List.headD], h0, hct, Or.inl (by simp)⟩
        | cons c2 r2 => simp at hlen
    · rw [if_neg hco] at ha
      exact walkEntries_inv ctail c0 [] hct h0 (by simp) a
        (by simpa [joinComps] using ha)

theorem mem_cleanAuthors (l : List Str) (n : Str) (h : n ∈ cleanAuthors l) :
    ∃ a ∈ l, n = pyStrip (cnnSub a) ∧ n ≠ [] ∧ pyUpper n ≠ CNN_AUTHOR_TOKEN := by
  induction l with
  | nil => cases h
  | cons a rest ih =>
    by_cases hcond : pyStrip (cnnSub a) ≠ [] ∧ pyUpper (pyStrip (cnnSub a)) ≠ CNN_AUTHOR_TOKEN
    · rw [show cleanAuthors (a :: rest) = pyStrip (cnnSub a) :: cleanAuthors rest from by
        simp [cleanAuthors, hcond.1, hcond.2]] at h
      rcases List.mem_cons.mp h with h | h
      · exact ⟨a, List.mem_cons_self a rest, h, h ▸ hcond.1, h ▸ hcond.2⟩
      · obtain ⟨b, hb, hn⟩ := ih h
        exact ⟨b, List.mem_cons_of_mem a hb, hn⟩
    · have hrw : cleanAuthors (a :: rest) = cleanAuthors rest := by
        simp only [cleanAuthors]
        rw [if_neg (by
          intro hcon
          simp only [Bool.and_eq_true, decide_eq_true_eq] at hcon
          exact hcond hcon)]
      rw [hrw] at h
      obtain ⟨b, hb, hn⟩ := ih h
      exact ⟨b, List.mem_cons_of_mem a hb, hn⟩

theorem entry_to_nice (a : Str) (hE : EntryInv a)
    (hne : pyStrip (cnnSub a) ≠ [])
    (hcnn : pyUpper (pyStrip (cnnSub a)) ≠ CNN_AUTHOR_TOKEN) :
    NiceName (pyStrip (cnnSub a)) := by
  obtain ⟨c0, ct, rfl, h0, hct, hsuf⟩ := hE
  rw [cnnSub_joinComps c0 ct h0 hct] at hne hcnn ⊢
  by_cases hcond : ct ≠ [] ∧ isCnnWord (lastOf c0 ct) = true
  · rw [if_pos hcond] at hne hcnn ⊢
    have hctd : ∀ c ∈ ct.dropLast, GoodComp c :=
      fun c hc => hct c ((List.dropLast_sublist ct).subset hc)
    have hid : pyStrip (joinComps c0 ct.dropLast) = joinComps c0 ct.dropLast :=
      pyStrip_of_trimmed _ (trimmedStr_joinComps c0 ct.dropLast h0 hctd)
    rw [hid] at hcnn ⊢
    refine ⟨c0, ct.dropLast, rfl, h0, hctd, ?_, ?_, hcnn⟩
    · rcases hsuf with hlen | hall
      · left
        have := List.length_dropLast ct
        omega
      · right
        exact fun c hc => hall c ((List.dropLast_sublist ct).subset hc)
    · cases hd : ct.dropLast with
      | nil => exact Or.inl rfl
      | cons x xs =>
        right
        have hmem : lastOf c0 (x :: xs) ∈ (x :: xs : List Str) :=
          lastOf_mem_tail (x :: xs) c0 (by simp)
        have hmem2 : lastOf c0 (x :: xs) ∈ ct := by
          rw [← hd] at hmem
          have h3 := (List.dropLast_sublist ct).subset hmem
          rwa [hd] at h3
        rcases hsuf with hlen | hall
        · exfalso
          have h1 := List.length_dropLast ct
          have h2 : ct.dropLast.length ≥ 1 := by rw [hd]; simp
          omega
        · exact suffixEntry_not_cnn _ (hall _ hmem2)
  · rw [if_neg hcond] at hne hcnn ⊢
    have hid : pyStrip (joinComps c0 ct) = joinComps c0 ct :=
      pyStrip_of_trimmed _ (trimmedStr_joinComps c0 ct h0 hct)
    rw [hid] at hcnn ⊢
    refine ⟨c0, ct, rfl, h0, hct, hsuf, ?_, hcnn⟩
    rcases Decidable.not_and_iff_or_not.mp hcond with hx | hx
    · exact Or.inl (Decidable.not_not.mp hx)
    · exact Or.inr (by simpa using hx)

theorem split_author_text_inv (s : Str) (n : Str) (h : n ∈ split_author_text s) :
    NiceName n := by
  unfold split_author_text at h
  by_cases hs : s = []
  · simp [hs] at h
  · by_cases hcl : pyStrip (stripLeadingBy s) = []
    · simp [hs, hcl] at h
    · simp only [if_neg hs, if_neg hcl] at h
      obtain ⟨a, ha, hnv, hne, hcnn⟩ := mem_cleanAuthors _ n h
      subst hnv
      refine entry_to_nice a ?_ hne hcnn
      rw [mem_catLists] at ha
      obtain ⟨l, hl, hal⟩ := ha
      rw [List.mem_map] at hl
      obtain ⟨part, hpart, rfl⟩ := hl
      exact processPart_inv _ _ part a hal

theorem joinComps_glue (x y : Str) (rest : List Str) :
    joinComps (x ++ commaSpace ++ y) rest = x ++ commaSpace ++ joinComps y rest := by
  cases rest with
  | nil => rfl
  | cons r rs =>
    rw [joinComps_cons, joinComps_cons]
    simp [commaSpace]

theorem walkEntries_all_suffix (es : List Str) (cur : Str)
    (hs : ∀ e ∈ es, isSuffixEntry e = true) (hcur : cur ≠ []) :
    walkEntries es cur = [joinComps cur es] := by
  induction es generalizing cur with
  | nil => simp [walkEntries, hcur, joinComps]
  | cons e rest ih =>
    have he : isSuffixEntry e = true := hs e (List.mem_cons_self e rest)
    have hrest : ∀ x ∈ rest, isSuffixEntry x = true :=
      fun x hx => hs x (List.mem_cons_of_mem e hx)
    have hguard : (isSuffixEntry e && decide (cur ≠ [])) = true := by
      rw [he, Bool.true_and]
      simpa using hcur
    simp only [walkEntries, hguard, if_true]
    rw [ih _ hrest (by simp [hcur]), joinComps_glue]
    rfl

theorem renormalize_nice (n : Str) (hN : NiceName n)
    (hby : stripLeadingBy n = n) (hconj : conjSplit n = [n]) :
    split_author_text n = [n] := by
  obtain ⟨c0, ct, hn, h0, hct, hsuf, hcnnw, hup⟩ := hN
  have hne : n ≠ [] := hn ▸ joinComps_ne_nil c0 ct h0.1
  have htrim : trimmedStr n = true := hn ▸ trimmedStr_joinComps c0 ct h0 hct
  have hps : pyStrip n = n := pyStrip_of_trimmed n htrim
  have hcps : ((splitComma n).map pyStrip).filter (fun x => decide (x ≠ [])) =
      c0 :: ct := by
    rw [hn, splitComma_joinComps c0 ct h0.2.2 (fun c hc => (hct c hc).2.2),
      List.map_cons, pyStrip_of_trimmed c0 h0.2.1, List.map_map]
    have hmapeq : ct.map (pyStrip ∘ fun c => ' ' :: c) = ct.map id := by
      apply List.map_congr_left
      intro c hc
      show pyStrip (' ' :: c) = c
      rw [pyStrip_cons_space, pyStrip_of_trimmed c (hct c hc).2.1]
    rw [hmapeq, List.map_id]
    apply List.filter_eq_self.mpr
    intro x hx
    rcases List.mem_cons.mp hx with hx | hx
    · subst hx
      simpa using h0.1
    · simpa using (hct x hx).1
  have hsub : cnnSub n = n := by
    rw [hn, cnnSub_joinComps c0 ct h0 hct, if_neg]
    intro hcon
    rcases hcnnw with hc | hc
    · exact hcon.1 hc
    · rw [hc] at hcon
      exact Bool.false_ne_true hcon.2
  have hpp : processPart (decide (([n] : List Str).length ≠ 1)) ([n] : List Str).length n
      = [n] := by
    have hd1 : (decide (([n] : List Str).length ≠ 1)) = false := by simp
    rw [hd1]
    unfold processPart
    rw [hcps]
    dsimp only
    cases hctc : ct with
    | nil =>
      rw [if_neg (by simp)]
      have : walkEntries [] c0 = [c0] := by simp [walkEntries, h0.1]
      rw [this, hn, hctc]
      rfl
    | cons c1 rest =>
      cases hrest : rest with
      | nil =>
        rw [if_pos (by simp)]
        rw [hn, hctc, hrest]
        rfl
      | cons c2 rest2 =>
        rw [if_neg (by simp)]
        have hall : ∀ e ∈ c1 :: c2 :: rest2, isSuffixEntry e = true := by
          rcases hsuf with hlen | hall
          · rw [hctc, hrest] at hlen
            simp at hlen
          · intro e hememb
            exact hall e (by rw [hctc, hrest]; exact hememb)
        rw [walkEntries_all_suffix _ c0 hall h0.1, hn, hctc, hrest]
  unfold split_author_text
  rw [if_neg hne, hby, hps, if_neg hne, hconj]
  simp only [List.map_cons, List.map_nil, catLists, List.append_nil]
  rw [hpp]
  show cleanAuthors [n] = [n]
  have hna : pyStrip (cnnSub n) = n := by rw [hsub, hps]
  simp [cleanAuthors, hna, hne, hup]

/-- Counterexample to claim C6 as stated: the byline reading By By Jane
normalizes to the single name By Jane, because the leading byline prefix is
removed only once; re-normalizing that name strips its prefix again and
returns Jane, so the normalizer is not idempotent on this output. -/
theorem C6_idempotence_counterexample :
    sByJane ∈ split_author_text sByByJane ∧
    split_author_text sByJane ≠ [sByJane] := by
  refine ⟨by decide, by decide⟩

/-- Claim C6 amended: for every byline string s and every name n produced by
the normalizer for s, re-normalizing n returns exactly that name, provided n
does not itself begin with a match of the leading byline prefix and contains
no conjunction separator; both provisos are forced by the source, which
strips the prefix only once and re-splits rebuilt names on conjunctions. -/
theorem C6_idempotence_amended (s n : Str) (hmem : n ∈ split_author_text s)
    (hby : stripLeadingBy n = n) (hconj : conjSplit n = [n]) :
    split_author_text n = [n] :=
  renormalize_nice n (split_author_text_inv s n hmem) hby hconj

/-- Witness for claim C6 amended: the byline By Jane Doe normalizes to the
name Jane Doe, which satisfies both provisos and re-normalizes to itself. -/
theorem C6_idempotence_amended_witness :
    split_author_text sJaneDoe = [sJaneDoe] :=
  C6_idempotence_amended sByJaneDoe sJaneDoe (by decide) (by decide) (by decide)
